import Mathlib

/-!
Verification of the chunking-and-merge changelog pipeline of
`generate_changelog.py`: chunk partitioning, the chunk cache, cache keys,
the retry wrapper's error classification, credential redaction, the
hierarchical merge, and the orchestrator's failure isolation.

External effects are made explicit: the text-generation service is an
oracle `List String → Except String String` (or a per-attempt oracle for
the retry wrapper), the cache directory is a map from file name to
content, and the recursive merge is run on explicit fuel so that
non-termination of the source algorithm is observable as `none`.
-/

namespace Changelog

/-! ## Character-list utilities (Python string primitives) -/

/-- Boolean test that `p` is a prefix of `l`, over character lists. -/
def chIsPre : List Char → List Char → Bool
  | [], _ => true
  | _ :: _, [] => false
  | p :: ps, c :: cs => p == c && chIsPre ps cs

/-- Boolean substring test, Python's `pat in s`: some suffix of `l` has `p` as a prefix. -/
def chHasSub (p : List Char) : List Char → Bool
  | [] => p.isEmpty
  | c :: cs => chIsPre p (c :: cs) || chHasSub p cs

/-- Python `str.lower()` on a character list. -/
def chLower (l : List Char) : List Char := l.map Char.toLower

/-- Substring test between strings, as Python's `in` operator. -/
def strHasSub (s pat : String) : Bool := chHasSub pat.toList s.toList

/-- Python `str.lower()`. -/
def lowerStr (s : String) : String := String.mk (chLower s.toList)

/-- The characters Python `str.strip()` removes by default (ASCII whitespace). -/
def pySpace (c : Char) : Bool :=
  c == ' ' || c == '\t' || c == '\n' || c == '\r' || c == '\x0b' || c == '\x0c'

/-- Python `str.strip()`: drop leading and trailing whitespace. -/
def pyStrip (s : String) : String :=
  String.mk (((s.toList.dropWhile pySpace).reverse.dropWhile pySpace).reverse)

/-- Python slice `l[a:b]` for non-negative clamped bounds. -/
def pySlice (l : List α) (a b : Nat) : List α := (l.drop a).take (b - a)

/-- Python `sep.join(parts)`. -/
def strJoin (sep : String) : List String → String
  | [] => ""
  | [x] => x
  | x :: y :: xs => x ++ sep ++ strJoin sep (y :: xs)

/-! ## Chunk partitioner -/

/-- Ceiling division as the script computes it: `(total + size - 1) // size`
(`num_chunks = (total_commits + COMMITS_PER_CHUNK - 1) // COMMITS_PER_CHUNK`). -/
def numChunksOf (total size : Nat) : Nat := (total + size - 1) / size

/-- The slice of records chunk `i` covers in `process_chunk`:
`commits_list[i*C : min(i*C + C, N)]`. -/
def chunkOf (l : List α) (size i : Nat) : List α :=
  pySlice l (i * size) (min (i * size + size) l.length)

/-- Split a list into consecutive chunks of `size` elements (last one possibly
shorter), as the `range(0, n, size)` slicing loops do. -/
def chunkList : Nat → List α → List (List α)
  | _, [] => []
  | 0, _ :: _ => []
  | size + 1, c :: cs =>
    (c :: cs).take (size + 1) :: chunkList (size + 1) ((c :: cs).drop (size + 1))
termination_by _ l => l.length
decreasing_by
  simp only [List.length_drop, List.length_cons]
  omega

/-! ## Cache store -/

/-- The chunk cache directory, as a map from key to the stored file content. -/
def CacheDir := String → Option String

/-- A directory holding no cache entries. -/
def emptyCacheDir : CacheDir := fun _ => none

/-- `write_chunk_cache`: persist `content` under `key` (ideal disk, no I/O failure). -/
def writeChunkCache (d : CacheDir) (key content : String) : CacheDir :=
  fun k => if k = key then some content else d k

/-- `read_chunk_cache`: look up `key`; the file content is stripped and an empty
result counts as a miss (`return content if content else None`). -/
def readChunkCache (d : CacheDir) (key : String) : Option String :=
  match d key with
  | none => none
  | some content =>
    let c := pyStrip content
    if c = "" then none else some c

/-- The hash input of `get_chunk_cache_key`:
`f"{chunk_commits_text}|{summary_type}|{model}|{output_language}"`. -/
def cacheKeyContent (text kind model lang : String) : String :=
  text ++ "|" ++ kind ++ "|" ++ model ++ "|" ++ lang

/-- `get_chunk_cache_key` with the SHA-256-and-truncate step abstracted as `h`. -/
def getChunkCacheKey (h : String → String) (text kind model lang : String) : String :=
  h (cacheKeyContent text kind model lang)

/-! ## Prompt size safety net (`generate_summary` / `merge_chunk_summaries`) -/

/-- `MAX_PROMPT_CHARS` / `MAX_MERGE_PROMPT_CHARS`, both 100000 in the script. -/
def MAX_PROMPT_CHARS : Nat := 100000

/-- The truncation note appended in `generate_summary`. -/
def genTruncMarker : String := "\n\n[Extended data truncated due to size limits]"

/-- The truncation note appended in `merge_chunk_summaries`. -/
def mergeTruncMarker : String := "\n\n[Some chunk summaries truncated due to size limits]"

/-- The truncation safety net: cap the prompt at `MAX_PROMPT_CHARS` characters and
append the marker when it was over the cap. -/
def truncatePrompt (marker : String) (p : List Char) : List Char :=
  if MAX_PROMPT_CHARS < p.length then p.take MAX_PROMPT_CHARS ++ marker.toList else p

/-- `estimated_tokens = len(prompt) // 4`, computed after truncation. -/
def estimatedTokens (marker : String) (p : List Char) : Nat :=
  (truncatePrompt marker p).length / 4

/-! ## Retry wrapper (`retry_api_call`) -/

/-- The error categories `retry_api_call` distinguishes by message inspection. -/
inductive ErrCategory where
  | rateLimit
  | auth
  | notFound
  | payloadTooLarge
  | network
  | generic
deriving DecidableEq, Repr

/-- Classify an exception message exactly as the wrapper's chain of
`if ... in error_str` tests does (the message is lowercased first, and the
checks run in this order). -/
def classifyError (msg : String) : ErrCategory :=
  let s := lowerStr msg
  if strHasSub s "429" || strHasSub s "rate limit" || strHasSub s "too many requests" then
    .rateLimit
  else if strHasSub s "401" || strHasSub s "unauthorized" || strHasSub s "invalid api key" then
    .auth
  else if strHasSub s "404" || strHasSub s "model not found" || strHasSub s "not available" then
    .notFound
  else if strHasSub s "413" || strHasSub s "too large" || strHasSub s "entity too large" then
    .payloadTooLarge
  else if strHasSub s "timeout" || strHasSub s "connection" || strHasSub s "network" then
    .network
  else
    .generic

/-- Outcome of the wrapped call: a returned value, an exception raised out of the
wrapper labeled with its category (the script prefixes the redacted message with a
category label, or re-raises the original for `generic`), or the `return None`
fall-through when the loop body never ran. -/
inductive RetryResult (α : Type) where
  | value (v : α)
  | raised (cat : ErrCategory) (msg : String)
  | exhausted
deriving DecidableEq, Repr

/-- The `for attempt in range(max_retries)` loop. `f` gives each attempt's outcome;
`rem` counts remaining iterations. The second component of the result counts how
many times the wrapped call was invoked. Backoff sleeps are dropped. -/
def retryGo (f : Nat → Except String α) (maxRetries : Nat) :
    Nat → Nat → RetryResult α × Nat
  | attempt, 0 => (.exhausted, attempt)
  | attempt, rem + 1 =>
    match f attempt with
    | .ok v => (.value v, attempt + 1)
    | .error msg =>
      match classifyError msg with
      | .rateLimit =>
        if attempt = maxRetries - 1 then (.raised .rateLimit msg, attempt + 1)
        else retryGo f maxRetries (attempt + 1) rem
      | .auth => (.raised .auth msg, attempt + 1)
      | .notFound => (.raised .notFound msg, attempt + 1)
      | .payloadTooLarge => (.raised .payloadTooLarge msg, attempt + 1)
      | .network =>
        if attempt = maxRetries - 1 then (.raised .network msg, attempt + 1)
        else retryGo f maxRetries (attempt + 1) rem
      | .generic =>
        if attempt = maxRetries - 1 then (.raised .generic msg, attempt + 1)
        else retryGo f maxRetries (attempt + 1) rem

/-- `retry_api_call(max_retries=...)` applied to a call whose attempt `i` behaves
as `f i`: run the retry loop from attempt 0. -/
def retryApiCall (maxRetries : Nat) (f : Nat → Except String α) : RetryResult α × Nat :=
  retryGo f maxRetries 0 maxRetries

/-! ## Credential redaction (`redact_api_key`) -/

/-- The fixed marker appended to the four kept characters of the credential. -/
def redactedMarker : List Char := "...[REDACTED]".toList

/-- The literal part of the OpenRouter key regex `sk-or-[a-zA-Z0-9_-]+`. -/
def skPat : List Char := "sk-or-".toList

/-- The replacement text `"sk-or-...[REDACTED]"` of the regex pass. -/
def rxRepl : List Char := "sk-or-...[REDACTED]".toList

/-- The regex character class `[a-zA-Z0-9_-]`. -/
def keyChar (c : Char) : Bool :=
  ('a' ≤ c && c ≤ 'z') || ('A' ≤ c && c ≤ 'Z') || ('0' ≤ c && c ≤ '9') || c == '_' || c == '-'

/-- Whether a character list starts with a character of the key class. -/
def headKeyChar : List Char → Bool
  | [] => false
  | d :: _ => keyChar d

/-- Python `text.replace(old, new)`: leftmost, non-overlapping replacement of
every occurrence (identity when `old` is empty never arises here: the script
guards on `len(api_key) > 8`). -/
def pyReplace (k r : List Char) (s : List Char) : List Char :=
  if k.length = 0 then s
  else
    match s with
    | [] => []
    | c :: cs =>
      if chIsPre k (c :: cs) then r ++ pyReplace k r ((c :: cs).drop k.length)
      else c :: pyReplace k r cs
termination_by s.length
decreasing_by
  · simp only [List.length_drop, List.length_cons]
    omega
  · simp only [List.length_cons]
    omega

/-- Dropping a prefix by predicate never lengthens a list. -/
theorem dropWhile_length_le (p : α → Bool) : ∀ l : List α, (l.dropWhile p).length ≤ l.length
  | [] => Nat.le_refl _
  | c :: cs => by
    by_cases h : p c
    · simpa [List.dropWhile, h] using Nat.le_succ_of_le (dropWhile_length_le p cs)
    · simp [List.dropWhile, h]

/-- Python `re.sub(r"sk-or-[a-zA-Z0-9_-]+", "sk-or-...[REDACTED]", text)`:
scan left to right; at a position where the literal `sk-or-` is followed by at
least one class character, replace the greedy match and continue after it. -/
def rxScan : List Char → List Char
  | [] => []
  | c :: cs =>
    if chIsPre skPat (c :: cs) && headKeyChar ((c :: cs).drop 6) then
      rxRepl ++ rxScan (((c :: cs).drop 6).dropWhile keyChar)
    else c :: rxScan cs
termination_by l => l.length
decreasing_by
  · have := dropWhile_length_le keyChar ((c :: cs).drop 6)
    simp only [List.length_drop, List.length_cons] at *
    omega
  · simp only [List.length_cons]
    omega

/-- `redact_api_key`, with the active credential passed explicitly instead of being
read from `OPENROUTER_API_KEY`: first the exact-credential replacement (only when
the credential is non-empty and longer than 8 characters), then the pattern pass. -/
def redactApiKey (apiKey text : String) : String :=
  let t1 :=
    if apiKey ≠ "" ∧ 8 < apiKey.length then
      pyReplace apiKey.toList (apiKey.toList.take 4 ++ redactedMarker) text.toList
    else text.toList
  String.mk (rxScan t1)

/-! ## Hierarchical merger (`hierarchical_merge_summaries`)

The external `merge_chunk_summaries` call is an oracle from the batch of
summaries to either a merged string or a raised exception message. The
recursion runs on explicit fuel: `none` means the fuel ran out, so the
claim "the algorithm terminates" becomes "some fuel yields a `some`". -/

/-- The payload-too-large signature test applied to a caught exception in
`hierarchical_merge_summaries`: `"413" in str(e) or "too large" in str(e).lower()`. -/
def is413 (msg : String) : Bool :=
  strHasSub msg "413" || strHasSub (lowerStr msg) "too large"

/-- One for-loop iteration's contribution after a payload-too-large failure: an
empty half contributes nothing, a non-empty one is merged recursively (via the
callback `rec`, which is the merger at the current fuel) with batch size
`max(2, batch_size - 2)`, contributing its single result. -/
def subMerge (rec : List String → Nat → Option (Except String String)) (batchSize : Nat)
    (sub : List String) : Option (Except String (List String)) :=
  if sub.isEmpty then some (.ok [])
  else
    match rec sub (max 2 (batchSize - 2)) with
    | none => none
    | some (.error e) => some (.error e)
    | some (.ok s) => some (.ok [s])

/-- The batch for-loop of `hierarchical_merge_summaries`: merge each batch with
the oracle; on a payload-too-large failure split the batch in half and merge each
non-empty half recursively; any other failure propagates. Returns the
`merged_batches` list. -/
def processBatches (oracle : List String → Except String String)
    (rec : List String → Nat → Option (Except String String)) (batchSize : Nat) :
    List (List String) → Option (Except String (List String))
  | [] => some (.ok [])
  | batch :: rest =>
    match oracle batch with
    | .ok m =>
      match processBatches oracle rec batchSize rest with
      | none => none
      | some (.error e) => some (.error e)
      | some (.ok l) => some (.ok (m :: l))
    | .error e =>
      if is413 e then
        match subMerge rec batchSize (batch.take (batch.length / 2)) with
        | none => none
        | some (.error e1) => some (.error e1)
        | some (.ok l1) =>
          match subMerge rec batchSize (batch.drop (batch.length / 2)) with
          | none => none
          | some (.error e2) => some (.error e2)
          | some (.ok l2) =>
            match processBatches oracle rec batchSize rest with
            | none => none
            | some (.error e3) => some (.error e3)
            | some (.ok lr) => some (.ok (l1 ++ l2 ++ lr))
      else some (.error e)

/-- `hierarchical_merge_summaries(chunk_summaries, ..., batch_size)` with merge
oracle `oracle`, on fuel: zero or one summaries are returned directly; up to
`batch_size` summaries get one direct merge attempt, retried at `batch_size - 1`
on a payload-too-large failure while `batch_size > 2`; otherwise the list is cut
into batches, each batch merged (splitting on payload-too-large failures), and
the merged batches are merged recursively. -/
def hierarchicalMergeSummaries (oracle : List String → Except String String)
    (fuel : Nat) (chunkSummaries : List String) (batchSize : Nat) :
    Option (Except String String) :=
  match fuel with
  | 0 => none
  | fuel + 1 =>
    if chunkSummaries.length ≤ 1 then some (.ok (chunkSummaries.headD ""))
    else if chunkSummaries.length ≤ batchSize then
      match oracle chunkSummaries with
      | .ok s => some (.ok s)
      | .error e =>
        if is413 e ∧ 2 < batchSize then
          hierarchicalMergeSummaries oracle fuel chunkSummaries (batchSize - 1)
        else some (.error e)
    else
      match processBatches oracle (fun l b => hierarchicalMergeSummaries oracle fuel l b)
          batchSize (chunkList batchSize chunkSummaries) with
      | none => none
      | some (.error e) => some (.error e)
      | some (.ok merged) => hierarchicalMergeSummaries oracle fuel merged batchSize

/-! ## Pipeline orchestrator (`generate_chunked_summary` and the `__main__` collection) -/

/-- The inputs `generate_chunked_summary` and `process_chunk` close over:
the formatted commit records, the chunking constant, the cache directory and
hash, the prompt pieces, and the two external calls (`generate_summary` as
`gen`, receiving the optional chunk number and the prompt, and
`merge_chunk_summaries` as `mergeOracle`). -/
structure ChunkEnv where
  commitsList : List String
  commitsPerChunk : Nat
  cacheDir : CacheDir
  hash : String → String
  summaryType : String
  model : String
  outputLanguage : String
  extendedContext : String
  template : String → String
  gen : Option Nat → String → Except String String
  mergeOracle : List String → Except String String
  description : String

/-- `total_commits = len(commits_formatted)`. -/
def ChunkEnv.totalCommits (env : ChunkEnv) : Nat := env.commitsList.length

/-- `num_chunks` as computed when chunking applies. -/
def ChunkEnv.numChunks (env : ChunkEnv) : Nat :=
  numChunksOf env.totalCommits env.commitsPerChunk

/-- The placeholder summary a failed chunk leaves in place:
`f"[Chunk {chunk_idx + 1} analysis failed - commits {start_idx + 1}-{end_idx} not included in detail]"`. -/
def placeholderSummary (chunkIdx startIdx endIdx : Nat) : String :=
  "[Chunk " ++ toString (chunkIdx + 1) ++ " analysis failed - commits " ++
    toString (startIdx + 1) ++ "-" ++ toString endIdx ++ " not included in detail]"

/-- `process_chunk(chunk_idx)`: slice the chunk, try the cache, otherwise call
`generate_summary`; a raised generation error is caught and replaced by the
placeholder. Returns `(chunk_idx, summary, was_cached)`. -/
def processChunk (env : ChunkEnv) (chunkIdx : Nat) : Nat × String × Bool :=
  let startIdx := chunkIdx * env.commitsPerChunk
  let endIdx := min (startIdx + env.commitsPerChunk) env.totalCommits
  let chunkCommits := pySlice env.commitsList startIdx endIdx
  let commitsText := strJoin "\n" chunkCommits
  let cacheKey := getChunkCacheKey env.hash commitsText env.summaryType env.model
    env.outputLanguage
  match readChunkCache env.cacheDir cacheKey with
  | some cached => (chunkIdx, cached, true)
  | none =>
    let baseContext := "Commits (chunk " ++ toString (chunkIdx + 1) ++ " of " ++
      toString env.numChunks ++ ", commits " ++ toString (startIdx + 1) ++ "-" ++
      toString endIdx ++ "):\n" ++ commitsText ++ env.extendedContext
    let prompt := env.template baseContext
    match env.gen (some (chunkIdx + 1)) prompt with
    | .ok s => (chunkIdx, s, false)
    | .error _ => (chunkIdx, placeholderSummary chunkIdx startIdx endIdx, false)

/-- The in-order chunk summary list `[chunk_summaries_dict[i] for i in range(num_chunks)]`
(reordering of completion order is settled separately, see `collectDict`). -/
def ChunkEnv.chunkSummaries (env : ChunkEnv) : List String :=
  (List.range env.numChunks).map (fun i => (processChunk env i).2.1)

/-- `generate_chunked_summary`: without chunking, one direct generation over all
commits; with chunking, all chunk summaries (placeholders included) are collected
in order, then a single summary is returned directly, several are merged
hierarchically, and none at all raises. -/
def generateChunkedSummary (env : ChunkEnv) (fuel : Nat) : Option (Except String String) :=
  if env.totalCommits ≤ env.commitsPerChunk then
    some (env.gen none (env.template
      ("Commits:\n" ++ strJoin "\n" env.commitsList ++ env.extendedContext)))
  else
    let cs := env.chunkSummaries
    if cs.length = 1 then some (.ok (cs.headD ""))
    else if 1 < cs.length then hierarchicalMergeSummaries env.mergeOracle fuel cs 5
    else some (.error ("No " ++ env.description ++ " chunks were successfully generated"))

/-- The completion-order dictionary `chunk_summaries_dict[chunk_idx] = chunk_summary`,
built as futures complete in arbitrary order. -/
def collectDict (completed : List (Nat × String)) : Nat → Option String :=
  completed.foldl (fun d p => fun j => if j = p.1 then some p.2 else d j) (fun _ => none)

/-- The final reassembly `[chunk_summaries_dict[i] for i in range(num_chunks)]`,
with `none` marking a `KeyError`. -/
def assembleInOrder (n : Nat) (completed : List (Nat × String)) : List (Option String) :=
  (List.range n).map (collectDict completed)

/-! ## Language configuration (`get_language_config`) and the fallback collection -/

/-- One language's labels and fallback strings. -/
structure LangConfig where
  week_label : String
  generated_on : String
  commits_label : String
  tech_changes : String
  user_impact : String
  all_commits : String
  statistics : String
  file_changes : String
  changelog_title : String
  auto_updated : String
  fallback_tech : String
  fallback_business : String
  lines_added : String
  lines_deleted : String
  files_changed : String
  force_updated : String
deriving DecidableEq, Repr

/-- The `"English"` entry of `language_configs`. -/
def englishConfig : LangConfig where
  week_label := "Week"
  generated_on := "Generated on"
  commits_label := "commits"
  tech_changes := "🔧 Technical Changes"
  user_impact := "📈 User Impact"
  all_commits := "📋 All Commits"
  statistics := "📊 Statistics"
  file_changes := "📁 File Changes"
  changelog_title := "Changelog"
  auto_updated := "This file is automatically updated with weekly changes."
  fallback_tech := "Technical changes were made this week. See commit details below for specifics."
  fallback_business := "Various improvements and updates were implemented this week."
  lines_added := "lines added"
  lines_deleted := "lines deleted"
  files_changed := "files changed"
  force_updated := "(Force Updated)"

/-- The `"Dutch"` entry of `language_configs`. -/
def dutchConfig : LangConfig where
  week_label := "Week"
  generated_on := "Gegenereerd op"
  commits_label := "commits"
  tech_changes := "🔧 Technische wijzigingen"
  user_impact := "📈 Impact voor gebruikers"
  all_commits := "📋 Alle commits"
  statistics := "📊 Statistieken"
  file_changes := "📁 Bestandswijzigingen"
  changelog_title := "Changelog"
  auto_updated := "Dit bestand wordt automatisch bijgewerkt met wekelijkse wijzigingen."
  fallback_tech := "Er zijn deze week technische wijzigingen doorgevoerd. Zie onderstaande commit details."
  fallback_business := "Deze week zijn diverse verbeteringen en updates doorgevoerd."
  lines_added := "regels toegevoegd"
  lines_deleted := "regels verwijderd"
  files_changed := "bestanden gewijzigd"
  force_updated := "(Geforceerd bijgewerkt)"

/-- The `"German"` entry of `language_configs`. -/
def germanConfig : LangConfig where
  week_label := "Woche"
  generated_on := "Generiert am"
  commits_label := "Commits"
  tech_changes := "🔧 Technische Änderungen"
  user_impact := "📈 Benutzerauswirkung"
  all_commits := "📋 Alle Commits"
  statistics := "📊 Statistiken"
  file_changes := "📁 Dateiänderungen"
  changelog_title := "Changelog"
  auto_updated := "Diese Datei wird automatisch mit wöchentlichen Änderungen aktualisiert."
  fallback_tech := "Diese Woche wurden technische Änderungen vorgenommen. Details siehe unten."
  fallback_business := "Diese Woche wurden verschiedene Verbesserungen und Updates implementiert."
  lines_added := "Zeilen hinzugefügt"
  lines_deleted := "Zeilen gelöscht"
  files_changed := "Dateien geändert"
  force_updated := "(Erzwungen aktualisiert)"

/-- The `"French"` entry of `language_configs`. -/
def frenchConfig : LangConfig where
  week_label := "Semaine"
  generated_on := "Généré le"
  commits_label := "commits"
  tech_changes := "🔧 Modifications techniques"
  user_impact := "📈 Impact utilisateur"
  all_commits := "📋 Tous les commits"
  statistics := "📊 Statistiques"
  file_changes := "📁 Changements de fichiers"
  changelog_title := "Journal des modifications"
  auto_updated := "Ce fichier est automatiquement mis à jour avec les changements hebdomadaires."
  fallback_tech := "Des modifications techniques ont été apportées cette semaine. Voir les détails ci-dessous."
  fallback_business := "Diverses améliorations et mises à jour ont été implémentées cette semaine."
  lines_added := "lignes ajoutées"
  lines_deleted := "lignes supprimées"
  files_changed := "fichiers modifiés"
  force_updated := "(Mise à jour forcée)"

/-- The `"Spanish"` entry of `language_configs`. -/
def spanishConfig : LangConfig where
  week_label := "Semana"
  generated_on := "Generado el"
  commits_label := "commits"
  tech_changes := "🔧 Cambios técnicos"
  user_impact := "📈 Impacto del usuario"
  all_commits := "📋 Todos los commits"
  statistics := "📊 Estadísticas"
  file_changes := "📁 Cambios en archivos"
  changelog_title := "Registro de cambios"
  auto_updated := "Este archivo se actualiza automáticamente con cambios semanales."
  fallback_tech := "Se realizaron cambios técnicos esta semana. Ver detalles de commits abajo."
  fallback_business := "Se implementaron varias mejoras y actualizaciones esta semana."
  lines_added := "líneas agregadas"
  lines_deleted := "líneas eliminadas"
  files_changed := "archivos cambiados"
  force_updated := "(Actualización forzada)"

/-- `get_language_config`: the requested language's table entry, or the English
one for an unsupported language. -/
def getLanguageConfig (language : String) : LangConfig :=
  if language = "English" then englishConfig
  else if language = "Dutch" then dutchConfig
  else if language = "German" then germanConfig
  else if language = "French" then frenchConfig
  else if language = "Spanish" then spanishConfig
  else englishConfig

/-- The `__main__` result collection: each kind's future is read independently and
a failure (a raised error, or an undelivered result) is replaced by that kind's
static fallback string; the other kind's result is untouched. -/
def collectKindResults (cfg : LangConfig) (tech bus : Option (Except String String)) :
    String × String :=
  ((match tech with
    | some (.ok s) => s
    | _ => cfg.fallback_tech),
   (match bus with
    | some (.ok s) => s
    | _ => cfg.fallback_business))

/-- Eleven commit records. -/
def c2Commits : List String := (List.range 11).map (fun i => "commit " ++ toString (i + 1))

/-- The Claim C2 scenario: chunk size 5, an empty cache, chunk 2's generation
call raising a non-retryable error, chunks 1 and 3 succeeding, and a working
merge call. -/
def c2Env : ChunkEnv where
  commitsList := c2Commits
  commitsPerChunk := 5
  cacheDir := emptyCacheDir
  hash := fun s => s
  summaryType := "technical"
  model := "openai/gpt-5-mini"
  outputLanguage := "English"
  extendedContext := ""
  template := fun base => "PROMPT:" ++ base
  gen := fun chunkNumber _ =>
    if chunkNumber = some 2 then .error "Model availability error: 404"
    else .ok ("SUMMARY " ++ toString (chunkNumber.getD 0))
  mergeOracle := fun parts => .ok ("MERGED " ++ toString parts.length)
  description := "technical summary"

/-- The technical-kind scenario of Claim C7: chunk generation succeeds but the
final merge raises a non-payload-related validation error, so the whole kind's
pipeline fails. -/
def c7TechEnv : ChunkEnv where
  commitsList := c2Commits
  commitsPerChunk := 5
  cacheDir := emptyCacheDir
  hash := fun s => s
  summaryType := "technical"
  model := "openai/gpt-5-mini"
  outputLanguage := "English"
  extendedContext := ""
  template := fun base => "PROMPT:" ++ base
  gen := fun chunkNumber _ => .ok ("TECH " ++ toString (chunkNumber.getD 0))
  mergeOracle := fun _ => .error "Merged technical too short or empty"
  description := "technical summary"

/-- The business-kind scenario of Claim C7: everything succeeds. -/
def c7BusEnv : ChunkEnv where
  commitsList := c2Commits
  commitsPerChunk := 5
  cacheDir := emptyCacheDir
  hash := fun s => s
  summaryType := "business"
  model := "openai/gpt-5-mini"
  outputLanguage := "English"
  extendedContext := ""
  template := fun base => "PROMPT:" ++ base
  gen := fun chunkNumber _ => .ok ("BUS " ++ toString (chunkNumber.getD 0))
  mergeOracle := fun _ => .ok "BUSINESS MERGED"
  description := "business summary"

/-- A merge oracle that always fails with a payload-too-large signature. -/
def always413 : List String → Except String String := fun _ => .error "413"

/-- A match of the credential pattern `sk-or-[a-zA-Z0-9_-]+` somewhere in the text:
some position starts with the literal prefix followed by a key-class character. -/
def hasSkMatch : List Char → Bool
  | [] => false
  | c :: cs => (chIsPre skPat (c :: cs) && headKeyChar ((c :: cs).drop 6)) || hasSkMatch cs

/-! ## Claim C10: the 120000-token fail-fast branch is unreachable -/

/-- Claim C10: in `generate_summary` and `merge_chunk_summaries`, the fail-fast
branch that raises `ValueError` when the estimated token count (`len(prompt) // 4`)
exceeds 120000 is unreachable: the preceding truncation caps the prompt at 100000
characters plus a short fixed marker, so the estimate stays at about 25000 tokens. -/
theorem C10_token_check_unreachable (p : List Char) :
    ¬ 120000 < estimatedTokens genTruncMarker p ∧
    ¬ 120000 < estimatedTokens mergeTruncMarker p ∧
    estimatedTokens genTruncMarker p ≤ 25012 ∧
    estimatedTokens mergeTruncMarker p ≤ 25014 := by
  have hg : genTruncMarker.toList.length = 46 := by decide
  have hm : mergeTruncMarker.toList.length = 53 := by decide
  refine ⟨?_, ?_, ?_, ?_⟩ <;>
  · unfold estimatedTokens truncatePrompt MAX_PROMPT_CHARS
    by_cases h : 100000 < p.length
    · simp only [if_pos h, List.length_append, List.length_take]
      omega
    · simp only [if_neg h]
      omega

/-! ## Claim C5: cache round-trip -/

/-- Claim C5 as stated is false: writing `"x\n"` under a key and reading that key
back yields the stripped `"x"`, not the exact stored content. -/
theorem C5_cex :
    readChunkCache (writeChunkCache emptyCacheDir "k" "x\n") "k" = some "x" ∧
    some ("x" : String) ≠ some ("x\n" : String) := by
  constructor
  · decide
  · decide

/-- Claim C5 amended: write-then-read returns the whitespace-stripped content,
absent when the content strips to empty (so whitespace-only stored content reads
as absent), and reading a never-written key is absent. -/
theorem C5_amended (d : CacheDir) (key content k' : String) :
    readChunkCache (writeChunkCache d key content) key =
      (if pyStrip content = "" then none else some (pyStrip content)) ∧
    readChunkCache emptyCacheDir k' = none := by
  constructor
  · simp [readChunkCache, writeChunkCache]
  · rfl

/-! ## Claim C6: cache keys of distinct field tuples -/

/-- Claim C6's collision-freeness of the delimited concatenation is false: a field
containing the `|` delimiter collides with a different tuple, so the hash inputs
(and hence the keys, for every hash) coincide on distinct inputs. -/
theorem C6_cex :
    cacheKeyContent "a|b" "c" "m" "l" = cacheKeyContent "a" "b|c" "m" "l" ∧
    getChunkCacheKey (fun s => s) "a|b" "c" "m" "l" =
      getChunkCacheKey (fun s => s) "a" "b|c" "m" "l" ∧
    ¬ (("a|b", "c") = (("a", "b|c") : String × String)) := by
  refine ⟨by decide, by decide, by decide⟩

/-- Splitting at the first delimiter is unambiguous when the left parts are
delimiter-free. -/
theorem pipe_split_inj (a : List Char) : ∀ (b r1 r2 : List Char), '|' ∉ a → '|' ∉ b →
    a ++ '|' :: r1 = b ++ '|' :: r2 → a = b ∧ r1 = r2 := by
  induction a with
  | nil =>
    intro b r1 r2 _ hb h
    cases b with
    | nil => simpa using h
    | cons y b' =>
      simp only [List.nil_append, List.cons_append, List.cons.injEq] at h
      exact absurd (by rw [h.1]; exact List.mem_cons_self _ _) hb
  | cons x a' ih =>
    intro b r1 r2 ha hb h
    cases b with
    | nil =>
      simp only [List.cons_append, List.nil_append, List.cons.injEq] at h
      exact absurd (by rw [← h.1]; exact List.mem_cons_self _ _) ha
    | cons y b' =>
      simp only [List.cons_append, List.cons.injEq] at h
      obtain ⟨hxy, hrest⟩ := h
      have hr := ih b' r1 r2 (fun hm => ha (List.mem_cons_of_mem _ hm))
        (fun hm => hb (List.mem_cons_of_mem _ hm)) hrest
      exact ⟨by rw [hxy, hr.1], hr.2⟩

/-- String append acts as list append on the character data. -/
theorem strData_append (a b : String) : (a ++ b).data = a.data ++ b.data := rfl

/-- Claim C6 amended: when no field contains the delimiter `|` (it can in general,
see the counterexample), the hash input determines the four fields, so distinct
tuples feed distinct inputs to the hash. -/
theorem C6_amended (t1 k1 m1 l1 t2 k2 m2 l2 : String)
    (ht1 : '|' ∉ t1.data) (hk1 : '|' ∉ k1.data) (hm1 : '|' ∉ m1.data)
    (ht2 : '|' ∉ t2.data) (hk2 : '|' ∉ k2.data) (hm2 : '|' ∉ m2.data)
    (h : cacheKeyContent t1 k1 m1 l1 = cacheKeyContent t2 k2 m2 l2) :
    t1 = t2 ∧ k1 = k2 ∧ m1 = m2 ∧ l1 = l2 := by
  have hpipe : ("|" : String).data = ['|'] := rfl
  have hd := congrArg String.data h
  simp only [cacheKeyContent, strData_append, hpipe, List.append_assoc,
    List.singleton_append] at hd
  obtain ⟨e1, hd⟩ := pipe_split_inj _ _ _ _ ht1 ht2 hd
  obtain ⟨e2, hd⟩ := pipe_split_inj _ _ _ _ hk1 hk2 hd
  obtain ⟨e3, hd⟩ := pipe_split_inj _ _ _ _ hm1 hm2 hd
  exact ⟨String.ext e1, String.ext e2, String.ext e3, String.ext hd⟩

/-- Witness for `C6_amended` at a concrete delimiter-free tuple. -/
theorem C6_amended_witness :
    ('|' ∉ ("txt" : String).data) ∧
    (("txt" : String) = "txt" ∧ ("technical" : String) = "technical" ∧
      ("m" : String) = "m" ∧ ("English" : String) = "English") :=
  ⟨by decide,
   C6_amended "txt" "technical" "m" "English" "txt" "technical" "m" "English"
     (by decide) (by decide) (by decide) (by decide) (by decide) (by decide) rfl⟩

/-! ## Claim C9: completion order does not affect the assembled list -/

/-- Folding completions whose keys avoid `i` leaves the dictionary's entry at `i`
unchanged. -/
theorem collectDict_not_mem (completed : List (Nat × String)) (acc : Nat → Option String)
    (i : Nat) (h : i ∉ completed.map Prod.fst) :
    completed.foldl (fun d p => fun j => if j = p.1 then some p.2 else d j) acc i = acc i := by
  induction completed generalizing acc with
  | nil => rfl
  | cons p rest ih =>
    simp only [List.map_cons, List.mem_cons] at h
    push_neg at h
    simp only [List.foldl_cons]
    rw [ih _ h.2]
    simp [h.1]

/-- With pairwise-distinct keys, the dictionary ends up mapping each completed
key to its value, regardless of the completion order. -/
theorem collectDict_mem (completed : List (Nat × String)) (acc : Nat → Option String)
    (i : Nat) (v : String) (hnd : (completed.map Prod.fst).Nodup) (hm : (i, v) ∈ completed) :
    completed.foldl (fun d p => fun j => if j = p.1 then some p.2 else d j) acc i = some v := by
  induction completed generalizing acc with
  | nil => cases hm
  | cons p rest ih =>
    simp only [List.map_cons, List.nodup_cons] at hnd
    simp only [List.foldl_cons]
    rcases List.mem_cons.mp hm with h | h
    · subst h
      rw [collectDict_not_mem rest _ i hnd.1]
      simp
    · exact ih _ hnd.2 h

/-- Claim C9: whatever order the workers complete in — any permutation of the
per-chunk results — the assembled chunk-summary list places chunk `i`'s summary
at position `i`. -/
theorem C9_order_independent_assembly (n : Nat) (f : Nat → String)
    (completed : List (Nat × String))
    (hperm : completed.Perm ((List.range n).map (fun i => (i, f i)))) :
    assembleInOrder n completed = (List.range n).map (fun i => some (f i)) := by
  have hkeys : (completed.map Prod.fst).Perm (List.range n) := by
    have h1 := hperm.map Prod.fst
    simpa [List.map_map, Function.comp_def, List.map_id'] using h1
  have hnd : (completed.map Prod.fst).Nodup := hkeys.nodup_iff.mpr (List.nodup_range n)
  unfold assembleInOrder
  apply List.map_congr_left
  intro i hi
  have hmem : (i, f i) ∈ completed := by
    apply hperm.mem_iff.mpr
    exact List.mem_map_of_mem _ hi
  exact collectDict_mem completed _ i (f i) hnd hmem

/-- Witness for `C9_order_independent_assembly`: three chunks completing in the
order 2, 0, 1 still assemble as chunk 0, 1, 2. -/
theorem C9_witness :
    ([(2, "s2"), (0, "s0"), (1, "s1")].Perm
      ((List.range 3).map (fun i => (i, "s" ++ toString i)))) ∧
    assembleInOrder 3 [(2, "s2"), (0, "s0"), (1, "s1")] =
      (List.range 3).map (fun i => some ("s" ++ toString i)) :=
  ⟨by decide, C9_order_independent_assembly 3 _ _ (by decide)⟩

/-! ## Claim C3: the chunk partition -/

/-- An empty record list yields zero chunks. -/
theorem numChunksOf_zero (s : Nat) : numChunksOf 0 s = 0 := by
  unfold numChunksOf
  cases s with
  | zero => rfl
  | succ s => exact Nat.div_eq_of_lt (by omega)

/-- Peeling one chunk off a non-empty list drops the count by one. -/
theorem numChunksOf_step (n s : Nat) (hs : 0 < s) (hn : 0 < n) :
    numChunksOf n s = numChunksOf (n - s) s + 1 := by
  unfold numChunksOf
  by_cases h : n ≤ s
  · have h1 : n - s = 0 := by omega
    rw [h1]
    have h2 : (0 + s - 1) / s = 0 := Nat.div_eq_of_lt (by omega)
    rw [h2]
    exact Nat.div_eq_of_lt_le (by omega) (by omega)
  · have h3 : n + s - 1 = (n - s + s - 1) + s := by omega
    rw [h3, Nat.add_div_right _ hs]

/-- Chunks are non-empty and no longer than the chunk size. -/
theorem chunkList_mem_length {α : Type} (s : Nat) (l : List α) :
    ∀ b ∈ chunkList s l, b ≠ [] ∧ b.length ≤ s := by
  induction s, l using chunkList.induct with
  | case1 s => intro b hb; simp [chunkList] at hb
  | case2 c cs => intro b hb; simp [chunkList] at hb
  | case3 size c cs ih =>
    intro b hb
    rw [chunkList] at hb
    rcases List.mem_cons.mp hb with h | h
    · subst h
      constructor
      · simp [List.take_eq_nil_iff]
      · simp [List.length_take]
    · exact ih b h

/-- The chunks concatenate back to the original list. -/
theorem chunkList_flatten {α : Type} (s : Nat) (l : List α) (hs : 0 < s) :
    (chunkList s l).flatten = l := by
  induction s, l using chunkList.induct with
  | case1 s => simp [chunkList]
  | case2 c cs => exact absurd hs (by decide)
  | case3 size c cs ih =>
    rw [chunkList, List.flatten_cons, ih hs]
    exact List.take_append_drop _ _

/-- There are exactly `ceil(N / size)` chunks. -/
theorem chunkList_length {α : Type} (s : Nat) (l : List α) (hs : 0 < s) :
    (chunkList s l).length = numChunksOf l.length s := by
  induction s, l using chunkList.induct with
  | case1 s => simp [chunkList, numChunksOf_zero]
  | case2 c cs => exact absurd hs (by decide)
  | case3 size c cs ih =>
    rw [chunkList, List.length_cons, ih hs,
      numChunksOf_step (c :: cs).length (size + 1) (by omega) (by simp)]
    simp [List.length_drop]

/-- The first chunk of the slicing loop. -/
theorem chunkOf_zero {α : Type} (l : List α) (s : Nat) : chunkOf l s 0 = l.take s := by
  unfold chunkOf pySlice
  simp only [Nat.zero_mul, List.drop_zero, Nat.zero_add, Nat.sub_zero]
  rw [List.take_eq_take]
  omega

/-- Later chunks of the slicing loop are chunks of the dropped list. -/
theorem chunkOf_succ {α : Type} (l : List α) (s i : Nat) :
    chunkOf l s (i + 1) = chunkOf (l.drop s) s i := by
  unfold chunkOf pySlice
  have h2 : (i + 1) * s = i * s + s := by ring
  rw [h2, List.drop_drop, List.length_drop]
  have h4 : min (i * s + s + s) l.length - (i * s + s) =
      min (i * s + s) (l.length - s) - i * s := by
    generalize i * s = t
    omega
  have h5 : s + i * s = i * s + s := by omega
  rw [h4, h5]

/-- The per-index slices of `process_chunk` enumerate exactly the chunk partition. -/
theorem range_map_chunkOf {α : Type} (s : Nat) (l : List α) (hs : 0 < s) :
    (List.range (numChunksOf l.length s)).map (chunkOf l s) = chunkList s l := by
  induction s, l using chunkList.induct with
  | case1 s => simp [chunkList, numChunksOf_zero]
  | case2 c cs => exact absurd hs (by decide)
  | case3 size c cs ih =>
    rw [chunkList,
      numChunksOf_step (c :: cs).length (size + 1) (by omega) (by simp),
      List.range_succ_eq_map, List.map_cons, chunkOf_zero, List.map_map]
    congr 1
    rw [← ih hs]
    have hlen : ((c :: cs).drop (size + 1)).length = (c :: cs).length - (size + 1) :=
      List.length_drop _ _
    rw [hlen]
    apply List.map_congr_left
    intro a _
    show chunkOf (c :: cs) (size + 1) (a + 1) = chunkOf ((c :: cs).drop (size + 1)) (size + 1) a
    exact chunkOf_succ _ _ _

/-- Claim C3: for record count N and chunk size C with 1 ≤ C < N, the loop
produces `ceil(N/C)` chunks, chunk `i` is the slice `[i*C, min((i+1)*C, N))`,
every chunk is non-empty, and the chunks in order concatenate back to the
records — a total, disjoint, order-preserving cover. -/
theorem C3_partition (l : List String) (C : Nat) (h1 : 1 ≤ C) (_h2 : C < l.length) :
    numChunksOf l.length C = l.length ⌈/⌉ C ∧
    (∀ i, chunkOf l C i = pySlice l (i * C) (min ((i + 1) * C) l.length)) ∧
    (∀ i, i < numChunksOf l.length C → chunkOf l C i ≠ []) ∧
    ((List.range (numChunksOf l.length C)).map (chunkOf l C)).flatten = l := by
  refine ⟨(Nat.ceilDiv_eq_add_pred_div _ _).symm, ?_, ?_, ?_⟩
  · intro i
    unfold chunkOf
    have h3 : i * C + C = (i + 1) * C := by ring
    rw [h3]
  · intro i hi
    have hmem : chunkOf l C i ∈ (List.range (numChunksOf l.length C)).map (chunkOf l C) :=
      List.mem_map_of_mem _ (List.mem_range.mpr hi)
    rw [range_map_chunkOf C l h1] at hmem
    exact (chunkList_mem_length C l _ hmem).1
  · rw [range_map_chunkOf C l h1]
    exact chunkList_flatten C l h1

/-- Witness for `C3_partition`: eleven records in chunks of five. -/
theorem C3_partition_witness :
    (1 ≤ 5 ∧ 5 < ((List.range 11).map (fun i => "c" ++ toString i)).length) ∧
    ((List.range (numChunksOf 11 5)).map
      (chunkOf ((List.range 11).map (fun i => "c" ++ toString i)) 5)).flatten =
      (List.range 11).map (fun i => "c" ++ toString i) :=
  ⟨⟨by decide, by decide⟩,
   (C3_partition ((List.range 11).map (fun i => "c" ++ toString i)) 5
     (by decide) (by decide)).2.2.2⟩

/-! ## Claim C2: chunk-level failure isolation, 11 commits in chunks of 5 -/

/-- Claim C2: with 11 records and chunk size 5 the pipeline forms 3 chunks of
sizes 5, 5, 1; chunk 2's non-retryable generation failure leaves the explicit
placeholder naming its commit range at position 2 while chunks 1 and 3 carry the
generated content, and the final merged summary is still produced. -/
theorem C2_chunk_failure_isolated :
    c2Env.numChunks = 3 ∧
    (chunkOf c2Commits 5 0).length = 5 ∧
    (chunkOf c2Commits 5 1).length = 5 ∧
    (chunkOf c2Commits 5 2).length = 1 ∧
    c2Env.chunkSummaries =
      ["SUMMARY 1",
       placeholderSummary 1 5 10,
       "SUMMARY 3"] ∧
    placeholderSummary 1 5 10 =
      "[Chunk 2 analysis failed - commits 6-10 not included in detail]" ∧
    generateChunkedSummary c2Env 1 = some (.ok "MERGED 3") := by
  refine ⟨by decide, by decide, by decide, by decide, by decide, by decide, rfl⟩

/-! ## Claim C7: kind-level fallback isolation -/

/-- Claim C7: when one kind's whole pipeline fails (here the technical merge
throws), the orchestrator substitutes that kind's language-appropriate static
fallback while the other kind's summary is untouched; and in general each kind's
output is either its own delivered summary or its own fallback, so both kinds
always produce output. -/
theorem C7_kind_fallback_isolated :
    (∀ lang : String,
      collectKindResults (getLanguageConfig lang)
        (generateChunkedSummary c7TechEnv 1) (generateChunkedSummary c7BusEnv 1) =
      ((getLanguageConfig lang).fallback_tech, "BUSINESS MERGED")) ∧
    (∀ (cfg : LangConfig) (techr busr : Option (Except String String)),
      ((collectKindResults cfg techr busr).1 = cfg.fallback_tech ∨
        ∃ s, techr = some (.ok s) ∧ (collectKindResults cfg techr busr).1 = s) ∧
      ((collectKindResults cfg techr busr).2 = cfg.fallback_business ∨
        ∃ s, busr = some (.ok s) ∧ (collectKindResults cfg techr busr).2 = s)) := by
  constructor
  · intro lang
    have ht : generateChunkedSummary c7TechEnv 1 =
        some (.error "Merged technical too short or empty") := rfl
    have hb : generateChunkedSummary c7BusEnv 1 = some (.ok "BUSINESS MERGED") := rfl
    rw [ht, hb]
    rfl
  · intro cfg techr busr
    constructor
    · match techr with
      | some (.ok s) => exact Or.inr ⟨s, rfl, rfl⟩
      | some (.error e) => exact Or.inl rfl
      | none => exact Or.inl rfl
    · match busr with
      | some (.ok s) => exact Or.inr ⟨s, rfl, rfl⟩
      | some (.error e) => exact Or.inl rfl
      | none => exact Or.inl rfl

/-! ## Claim C4: retry classification -/

/-- Claim C4's `401` clause fails as stated: a message containing both a
rate-limit marker and `401` is classified as rate-limited first, so with
`max_retries = 2` the call is attempted twice and raises the rate-limit label,
not once with the authentication label. -/
theorem C4_cex :
    strHasSub (lowerStr "429 401") "401" = true ∧
    retryApiCall 2 (fun _ => (.error "429 401" : Except String Unit)) =
      (.raised .rateLimit "429 401", 2) ∧
    ((.raised .rateLimit "429 401", 2) : RetryResult Unit × Nat) ≠
      (.raised .auth "429 401", 1) := by
  refine ⟨by decide, by decide, by decide⟩

/-- A retryable category (rate-limit here; network and generic behave the same)
raised on every attempt is retried until the final attempt, which raises it with
`max_retries` calls made in total. -/
theorem retryGo_retryable (f : Nat → Except String Unit) (n : Nat) (cat : ErrCategory)
    (hcat : cat = .rateLimit ∨ cat = .network ∨ cat = .generic)
    (hf : ∀ i, ∃ m, f i = .error m ∧ classifyError m = cat) :
    ∀ (rem attempt : Nat), 1 ≤ rem → attempt + rem = n →
      ∃ m, retryGo f n attempt rem = (.raised cat m, n) := by
  intro rem
  induction rem with
  | zero => intro attempt h0 h1; omega
  | succ r ih =>
    intro attempt h1 h2
    obtain ⟨m, hm, hc⟩ := hf attempt
    by_cases hlast : attempt = n - 1
    · subst hlast
      refine ⟨m, ?_⟩
      have hn : n - 1 + 1 = n := by omega
      rcases hcat with h | h | h <;> subst h <;>
        simp [retryGo, hm, hc, hn]
    · have hr : 1 ≤ r := by omega
      obtain ⟨m', hm'⟩ := ih (attempt + 1) hr (by omega)
      refine ⟨m', ?_⟩
      rcases hcat with h | h | h <;> subst h <;>
        simp [retryGo, hm, hc, hlast, hm']

/-- Claim C4 amended: a message containing `401` and no rate-limit marker is
attempted exactly once and raises the authentication label (a message carrying
both markers is rate-limited instead, see the counterexample); a message
containing `429` on every attempt is retried up to `max_retries` attempts and
raises the rate-limit label; a message matching no marker is treated as generic
and retried up to `max_retries` attempts. -/
theorem C4_amended :
    (∀ (f : Nat → Except String Unit) (n : Nat) (m : String), 1 ≤ n →
      f 0 = .error m →
      strHasSub (lowerStr m) "401" = true →
      strHasSub (lowerStr m) "429" = false →
      strHasSub (lowerStr m) "rate limit" = false →
      strHasSub (lowerStr m) "too many requests" = false →
      retryApiCall n f = (.raised .auth m, 1)) ∧
    (∀ (f : Nat → Except String Unit) (n : Nat), 1 ≤ n →
      (∀ i, ∃ m, f i = .error m ∧ strHasSub (lowerStr m) "429" = true) →
      ∃ m, retryApiCall n f = (.raised .rateLimit m, n)) ∧
    (∀ (f : Nat → Except String Unit) (n : Nat), 1 ≤ n →
      (∀ i, ∃ m, f i = .error m ∧ classifyError m = .generic) →
      ∃ m, retryApiCall n f = (.raised .generic m, n)) := by
  refine ⟨?_, ?_, ?_⟩
  · intro f n m hn hf h401 h429 hrl htm
    have hc : classifyError m = .auth := by
      unfold classifyError
      simp [h401, h429, hrl, htm]
    obtain ⟨rem, hrem⟩ : ∃ rem, n = rem + 1 := ⟨n - 1, by omega⟩
    unfold retryApiCall
    rw [hrem]
    simp [retryGo, hf, hc]
  · intro f n hn hf
    have hf' : ∀ i, ∃ m, f i = .error m ∧ classifyError m = .rateLimit := by
      intro i
      obtain ⟨m, hm, h429⟩ := hf i
      exact ⟨m, hm, by unfold classifyError; simp [h429]⟩
    exact retryGo_retryable f n .rateLimit (Or.inl rfl) hf' n 0 (by omega) (by omega)
  · intro f n hn hf
    exact retryGo_retryable f n .generic (Or.inr (Or.inr rfl)) hf n 0 (by omega) (by omega)

/-- Witness for `C4_amended` at concrete messages and `max_retries = 3`. -/
theorem C4_amended_witness :
    ((1:Nat) ≤ 3 ∧
      retryApiCall 3 (fun _ => (.error "401 unauthorized" : Except String Unit)) =
        (.raised .auth "401 unauthorized", 1)) ∧
    (∃ m, retryApiCall 3 (fun _ => (.error "429 too many requests" : Except String Unit)) =
      (.raised .rateLimit m, 3)) ∧
    (∃ m, retryApiCall 3 (fun _ => (.error "boom" : Except String Unit)) =
      (.raised .generic m, 3)) :=
  ⟨⟨by decide,
    C4_amended.1 _ 3 _ (by decide) rfl (by decide) (by decide) (by decide) (by decide)⟩,
   C4_amended.2.1 _ 3 (by decide) (fun _ => ⟨"429 too many requests", rfl, by decide⟩),
   C4_amended.2.2 _ 3 (by decide) (fun _ => ⟨"boom", rfl, by decide⟩)⟩

/-! ## Claim C1: helper lemmas for the hierarchical merge -/

/-- Unfolding of `chunkList` on a non-empty list with positive chunk size. -/
theorem chunkList_cons {α : Type} (s : Nat) (l : List α) (hs : 0 < s) (hl : l ≠ []) :
    chunkList s l = l.take s :: chunkList s (l.drop s) := by
  cases l with
  | nil => exact absurd rfl hl
  | cons c cs =>
    cases s with
    | zero => exact absurd hs (by decide)
    | succ s => rw [chunkList]

/-- A successful `subMerge` contributes at most one element, and exactly one on a
non-empty half. -/
theorem subMerge_ok_length (rec : List String → Nat → Option (Except String String))
    (b : Nat) (sub : List String) (r : List String)
    (h : subMerge rec b sub = some (.ok r)) : r.length ≤ 1 ∧ (sub ≠ [] → r.length = 1) := by
  unfold subMerge at h
  by_cases he : sub.isEmpty
  · rw [if_pos he] at h
    obtain rfl : ([] : List String) = r := by
      cases h; rfl
    exact ⟨by decide, fun hne => absurd (List.isEmpty_iff.mp he) hne⟩
  · rw [if_neg he] at h
    cases hr : rec sub (max 2 (b - 2)) with
    | none => rw [hr] at h; cases h
    | some x =>
      rw [hr] at h
      cases x with
      | error e => cases h
      | ok s =>
        obtain rfl : [s] = r := by cases h; rfl
        exact ⟨by simp, fun _ => rfl⟩

/-- Lifting `subMerge` along a pointwise refinement of the recursive callback. -/
theorem subMerge_mono (rec rec' : List String → Nat → Option (Except String String))
    (hrec : ∀ l b r, rec l b = some r → rec' l b = some r)
    (b : Nat) (sub : List String) (r : Except String (List String))
    (h : subMerge rec b sub = some r) : subMerge rec' b sub = some r := by
  unfold subMerge at h ⊢
  by_cases he : sub.isEmpty
  · rw [if_pos he] at h ⊢
    exact h
  · rw [if_neg he] at h ⊢
    cases hr : rec sub (max 2 (b - 2)) with
    | none => rw [hr] at h; cases h
    | some x =>
      rw [hr] at h
      rw [hrec _ _ _ hr]
      exact h

/-- Lifting the batch loop along a pointwise refinement of the recursive callback. -/
theorem processBatches_mono (oracle : List String → Except String String)
    (rec rec' : List String → Nat → Option (Except String String))
    (hrec : ∀ l b r, rec l b = some r → rec' l b = some r) (b : Nat) :
    ∀ (bs : List (List String)) (r : Except String (List String)),
      processBatches oracle rec b bs = some r → processBatches oracle rec' b bs = some r := by
  intro bs
  induction bs with
  | nil => intro r h; exact h
  | cons batch rest ih =>
    intro r h
    unfold processBatches at h ⊢
    cases ho : oracle batch with
    | ok m =>
      simp only [ho] at h ⊢
      cases hrest : processBatches oracle rec b rest with
      | none => rw [hrest] at h; cases h
      | some x =>
        rw [hrest] at h
        rw [ih x hrest]
        exact h
    | error e =>
      simp only [ho] at h ⊢
      by_cases h413e : is413 e
      · rw [if_pos h413e] at h ⊢
        cases hs1 : subMerge rec b (batch.take (batch.length / 2)) with
        | none => rw [hs1] at h; cases h
        | some x1 =>
          rw [hs1] at h
          rw [subMerge_mono rec rec' hrec b _ x1 hs1]
          cases x1 with
          | error e1 => exact h
          | ok l1 =>
            cases hs2 : subMerge rec b (batch.drop (batch.length / 2)) with
            | none => rw [hs2] at h; cases h
            | some x2 =>
              rw [hs2] at h
              rw [subMerge_mono rec rec' hrec b _ x2 hs2]
              cases x2 with
              | error e2 => exact h
              | ok l2 =>
                cases hrest : processBatches oracle rec b rest with
                | none => rw [hrest] at h; cases h
                | some x3 =>
                  rw [hrest] at h
                  rw [ih x3 hrest]
                  exact h
      · rw [if_neg h413e] at h ⊢
        exact h

/-- Fuel monotonicity: a merge that completes on some fuel completes identically
on any larger fuel. -/
theorem hMS_mono (oracle : List String → Except String String) :
    ∀ (f f' : Nat), f ≤ f' → ∀ (l : List String) (b : Nat) (r : Except String String),
      hierarchicalMergeSummaries oracle f l b = some r →
      hierarchicalMergeSummaries oracle f' l b = some r := by
  intro f
  induction f with
  | zero =>
    intro f' _ l b r h
    simp [hierarchicalMergeSummaries] at h
  | succ g ih =>
    intro f' hle l b r h
    obtain ⟨g', rfl⟩ : ∃ g', f' = g' + 1 := ⟨f' - 1, by omega⟩
    have hg : g ≤ g' := by omega
    simp only [hierarchicalMergeSummaries] at h ⊢
    by_cases h1 : l.length ≤ 1
    · rw [if_pos h1] at h ⊢
      exact h
    · rw [if_neg h1] at h ⊢
      by_cases h2 : l.length ≤ b
      · rw [if_pos h2] at h ⊢
        cases ho : oracle l with
        | ok s =>
          simp only [ho] at h ⊢
          exact h
        | error e =>
          simp only [ho] at h ⊢
          by_cases h3 : is413 e = true ∧ 2 < b
          · rw [if_pos h3] at h ⊢
            exact ih g' hg _ _ _ h
          · rw [if_neg h3] at h ⊢
            exact h
      · rw [if_neg h2] at h ⊢
        cases hpb : processBatches oracle
            (fun l' b' => hierarchicalMergeSummaries oracle g l' b') b (chunkList b l) with
        | none =>
          rw [hpb] at h
          cases h
        | some res =>
          rw [hpb] at h
          have hpb' : processBatches oracle
              (fun l' b' => hierarchicalMergeSummaries oracle g' l' b') b (chunkList b l) =
              some res :=
            processBatches_mono oracle _ _ (fun l' b' r' hh => ih g' hg l' b' r' hh) b
              (chunkList b l) res hpb
          rw [hpb']
          cases res with
          | error e => exact h
          | ok merged => exact ih g' hg _ _ _ h

/-! ## Claim C1: unfolding lemmas for the merger -/

/-- Unfolding of the merger's batch branch. -/
theorem hMS_batch_case (oracle : List String → Except String String) (fuel : Nat)
    (l : List String) (b : Nat) (h1 : ¬ l.length ≤ 1) (h2 : ¬ l.length ≤ b) :
    hierarchicalMergeSummaries oracle (fuel + 1) l b =
      match processBatches oracle (fun l' b' => hierarchicalMergeSummaries oracle fuel l' b') b
          (chunkList b l) with
      | none => none
      | some (.error e) => some (.error e)
      | some (.ok merged) => hierarchicalMergeSummaries oracle fuel merged b := by
  simp only [hierarchicalMergeSummaries]
  rw [if_neg h1, if_neg h2]

/-- The concrete two-by-two chunking of the counterexample. -/
theorem chunkList_concrete : chunkList 2 ["a", "b", "c", "d"] = [["a", "b"], ["c", "d"]] := by
  rw [chunkList_cons 2 _ (by decide) (by decide), chunkList_cons 2 _ (by decide) (by decide)]
  simp [chunkList]

/-- One full pass of the merger over four summaries at batch size 2 under the
always-failing oracle reassembles the same four summaries: each two-element
batch fails, is split into singletons, and the singletons are returned as they
are, so the recursion makes no progress. -/
theorem always413_step (f : Nat) :
    hierarchicalMergeSummaries always413 (f + 2) ["a", "b", "c", "d"] 2 =
      hierarchicalMergeSummaries always413 (f + 1) ["a", "b", "c", "d"] 2 := by
  rw [hMS_batch_case always413 (f + 1) _ 2 (by decide) (by decide), chunkList_concrete]
  rfl

/-- No fuel completes the always-failing four-summary merge at batch size 2. -/
theorem always413_none :
    ∀ fuel, hierarchicalMergeSummaries always413 fuel ["a", "b", "c", "d"] 2 = none := by
  intro fuel
  induction fuel with
  | zero => rfl
  | succ f ih =>
    cases f with
    | zero =>
      rw [hMS_batch_case always413 0 _ 2 (by decide) (by decide), chunkList_concrete]
      rfl
    | succ g => rw [always413_step g]; exact ih

/-- Claim C1 fails as stated: when every merge call fails with a payload-too-large
error, four summaries at `batch_size = 2` never terminate — each level splits the
two-element batches into singletons, returns them unchanged, and recurses on the
same four summaries, so the sequence length does not decrease and no amount of
fuel produces a result. -/
theorem C1_cex :
    (["a", "b", "c", "d"] : List String) ≠ [] ∧ 2 ≤ 2 ∧
    ¬ ∃ fuel r, hierarchicalMergeSummaries always413 fuel ["a", "b", "c", "d"] 2 = some r := by
  refine ⟨by decide, by decide, ?_⟩
  rintro ⟨fuel, r, hr⟩
  rw [always413_none fuel] at hr
  cases hr

/-- Bounds on a successful batch pass: with every batch non-empty and merges of
at most two summaries succeeding, each batch contributes at least one merged
summary and at most two — and batches of one or two summaries contribute exactly
one, since their direct merge cannot fail. -/
theorem processBatches_ok_bounds (oracle : List String → Except String String)
    (hok : ∀ l : List String, l.length ≤ 2 → ∃ s, oracle l = .ok s)
    (rec : List String → Nat → Option (Except String String)) (b : Nat) :
    ∀ (bs : List (List String)) (merged : List String), (∀ batch ∈ bs, batch ≠ []) →
      processBatches oracle rec b bs = some (.ok merged) →
      bs.length ≤ merged.length ∧
      merged.length ≤ (bs.map (fun batch => if batch.length ≤ 2 then 1 else 2)).sum := by
  intro bs
  induction bs with
  | nil =>
    intro merged _ h
    obtain rfl : ([] : List String) = merged := by cases h; rfl
    simp
  | cons batch rest ih =>
    intro merged hne h
    have hbne : batch ≠ [] := hne batch (List.mem_cons_self _ _)
    unfold processBatches at h
    cases ho : oracle batch with
    | ok m =>
      simp only [ho] at h
      cases hrest : processBatches oracle rec b rest with
      | none => rw [hrest] at h; cases h
      | some x =>
        rw [hrest] at h
        cases x with
        | error e => cases h
        | ok lr =>
          obtain rfl : m :: lr = merged := by cases h; rfl
          obtain ⟨hl, hu⟩ := ih lr (fun x hx => hne x (List.mem_cons_of_mem _ hx)) hrest
          constructor
          · simpa using hl
          · simp only [List.map_cons, List.sum_cons, List.length_cons]
            have hbound : (1 : Nat) ≤ if batch.length ≤ 2 then 1 else 2 := by
              by_cases hc : batch.length ≤ 2 <;> simp [hc]
            omega
    | error e =>
      simp only [ho] at h
      have hlen3 : ¬ batch.length ≤ 2 := by
        intro hc
        obtain ⟨s, hs⟩ := hok batch hc
        rw [ho] at hs
        cases hs
      by_cases h413e : is413 e
      · rw [if_pos h413e] at h
        cases hs1 : subMerge rec b (batch.take (batch.length / 2)) with
        | none => rw [hs1] at h; cases h
        | some x1 =>
          rw [hs1] at h
          cases x1 with
          | error e1 => cases h
          | ok l1 =>
            cases hs2 : subMerge rec b (batch.drop (batch.length / 2)) with
            | none => rw [hs2] at h; cases h
            | some x2 =>
              rw [hs2] at h
              cases x2 with
              | error e2 => cases h
              | ok l2 =>
                cases hrest : processBatches oracle rec b rest with
                | none => rw [hrest] at h; cases h
                | some x3 =>
                  rw [hrest] at h
                  cases x3 with
                  | error e3 => cases h
                  | ok lr =>
                    obtain rfl : l1 ++ l2 ++ lr = merged := by cases h; rfl
                    obtain ⟨hl, hu⟩ := ih lr (fun x hx => hne x (List.mem_cons_of_mem _ hx)) hrest
                    have hb1 := subMerge_ok_length rec b _ l1 hs1
                    have hb2 := subMerge_ok_length rec b _ l2 hs2
                    have hlenpos : 1 ≤ batch.length := by
                      cases batch with
                      | nil => exact absurd rfl hbne
                      | cons c cs => simp
                    have hdrop_ne : batch.drop (batch.length / 2) ≠ [] := by
                      intro hc
                      have := List.drop_eq_nil_iff.mp hc
                      omega
                    have hl2 : l2.length = 1 := hb2.2 hdrop_ne
                    constructor
                    · simp only [List.length_cons, List.length_append]
                      omega
                    · simp only [List.map_cons, List.sum_cons, List.length_append,
                        if_neg hlen3]
                      omega
      · rw [if_neg h413e] at h
        cases h

/-- Each batch's contribution bound is at most its size. -/
theorem contrib_sum_le (bs : List (List String)) (hne : ∀ batch ∈ bs, batch ≠ []) :
    (bs.map (fun batch => if batch.length ≤ 2 then 1 else 2)).sum ≤
      (bs.map List.length).sum := by
  induction bs with
  | nil => simp
  | cons batch rest ih =>
    simp only [List.map_cons, List.sum_cons]
    have h1 : 1 ≤ batch.length := by
      have hb := hne batch (List.mem_cons_self _ _)
      cases batch with
      | nil => exact absurd rfl hb
      | cons c cs => simp
    have hc : (if batch.length ≤ 2 then 1 else 2) ≤ batch.length := by
      by_cases h : batch.length ≤ 2 <;> simp [h] <;> omega
    have hr := ih (fun x hx => hne x (List.mem_cons_of_mem _ hx))
    omega

/-- With at least one batch of two or more summaries, the contribution bound is
strictly below the total size. -/
theorem contrib_sum_lt (bs : List (List String)) (hne : ∀ batch ∈ bs, batch ≠ [])
    (hex : ∃ batch ∈ bs, 2 ≤ batch.length) :
    (bs.map (fun batch => if batch.length ≤ 2 then 1 else 2)).sum <
      (bs.map List.length).sum := by
  induction bs with
  | nil =>
    obtain ⟨x, hx, _⟩ := hex
    cases hx
  | cons batch rest ih =>
    simp only [List.map_cons, List.sum_cons]
    obtain ⟨x, hx, hx2⟩ := hex
    have hrestne : ∀ y ∈ rest, y ≠ [] := fun y hy => hne y (List.mem_cons_of_mem _ hy)
    rcases List.mem_cons.mp hx with heq | hmem
    · subst heq
      have hstrict : (if x.length ≤ 2 then 1 else 2) < x.length := by
        by_cases h : x.length ≤ 2 <;> simp [h] <;> omega
      have hr := contrib_sum_le rest hrestne
      omega
    · have hr := ih hrestne ⟨x, hmem, hx2⟩
      have h1 : 1 ≤ batch.length := by
        have hb := hne batch (List.mem_cons_self _ _)
        cases batch with
        | nil => exact absurd rfl hb
        | cons c cs => simp
      have hc : (if batch.length ≤ 2 then 1 else 2) ≤ batch.length := by
        by_cases h : batch.length ≤ 2 <;> simp [h] <;> omega
      omega

/-- Any successful batch pass over a chunking of `l` (with more summaries than
the batch size) strictly compresses: the next level is non-empty and strictly
shorter than `l`. -/
theorem merged_level_lt (oracle : List String → Except String String)
    (hok : ∀ l : List String, l.length ≤ 2 → ∃ s, oracle l = .ok s)
    (rec : List String → Nat → Option (Except String String))
    (l merged : List String) (b : Nat) (hb : 2 ≤ b) (hbl : b < l.length)
    (hpb : processBatches oracle rec b (chunkList b l) = some (.ok merged)) :
    1 ≤ merged.length ∧ merged.length < l.length := by
  have hne : l ≠ [] := by
    intro hc
    subst hc
    simp at hbl
  have hchunks := chunkList_mem_length b l
  obtain ⟨hlow, hup⟩ := processBatches_ok_bounds oracle hok rec b (chunkList b l) merged
    (fun x hx => (hchunks x hx).1) hpb
  have hsum : ((chunkList b l).map List.length).sum = l.length := by
    have hfl := chunkList_flatten b l (by omega)
    calc ((chunkList b l).map List.length).sum
        = (chunkList b l).flatten.length := (List.length_flatten _).symm
      _ = l.length := by rw [hfl]
  have hhead : l.take b ∈ chunkList b l := by
    rw [chunkList_cons b l (by omega) hne]
    exact List.mem_cons_self _ _
  have hhead2 : 2 ≤ (l.take b).length := by
    simp only [List.length_take]
    omega
  have hstrict := contrib_sum_lt (chunkList b l) (fun x hx => (hchunks x hx).1)
    ⟨l.take b, hhead, hhead2⟩
  have hchunks_len : 1 ≤ (chunkList b l).length := by
    rw [chunkList_cons b l (by omega) hne]
    simp
  exact ⟨by omega, by omega⟩

/-- Helper to package a successful recursive half-merge as a `subMerge` result. -/
theorem subMerge_ok_of (rec : List String → Nat → Option (Except String String))
    (b : Nat) (sub : List String) (hne : sub ≠ []) (s : String)
    (h : rec sub (max 2 (b - 2)) = some (.ok s)) : subMerge rec b sub = some (.ok [s]) := by
  unfold subMerge
  rw [if_neg (by simpa [List.isEmpty_iff] using hne), h]

/-- Existence of a successful batch pass: merges of at most two summaries always
succeed and failures are payload-too-large, so with enough fuel every batch
resolves (directly or through its halves). -/
theorem processBatches_total (oracle : List String → Except String String)
    (hok : ∀ l : List String, l.length ≤ 2 → ∃ s, oracle l = .ok s)
    (h413 : ∀ l e, oracle l = .error e → is413 e = true) (b : Nat)
    (IH : ∀ sub : List String, sub ≠ [] → sub.length ≤ b → ∀ b', 2 ≤ b' →
      ∃ fuel s, hierarchicalMergeSummaries oracle fuel sub b' = some (.ok s)) :
    ∀ bs : List (List String), (∀ batch ∈ bs, batch ≠ [] ∧ batch.length ≤ b) →
      ∃ fuel merged, processBatches oracle
        (fun l' b' => hierarchicalMergeSummaries oracle fuel l' b') b bs =
        some (.ok merged) := by
  intro bs
  induction bs with
  | nil => exact fun _ => ⟨0, [], rfl⟩
  | cons batch rest ih =>
    intro hbs
    obtain ⟨F1, merged1, h1⟩ := ih (fun x hx => hbs x (List.mem_cons_of_mem _ hx))
    obtain ⟨hbne, hblen⟩ := hbs batch (List.mem_cons_self _ _)
    cases ho : oracle batch with
    | ok m =>
      refine ⟨F1, m :: merged1, ?_⟩
      unfold processBatches
      simp only [ho, h1]
    | error e =>
      have h413e : is413 e = true := h413 batch e ho
      have hlen3 : 3 ≤ batch.length := by
        by_contra hc
        push_neg at hc
        obtain ⟨s, hs⟩ := hok batch (by omega)
        rw [ho] at hs
        cases hs
      have htake_ne : batch.take (batch.length / 2) ≠ [] := by
        intro hc
        rcases List.take_eq_nil_iff.mp hc with h | h
        · omega
        · exact hbne h
      have hdrop_ne : batch.drop (batch.length / 2) ≠ [] := by
        intro hc
        have := List.drop_eq_nil_iff.mp hc
        omega
      have htake_len : (batch.take (batch.length / 2)).length ≤ b := by
        simp only [List.length_take]
        omega
      have hdrop_len : (batch.drop (batch.length / 2)).length ≤ b := by
        simp only [List.length_drop]
        omega
      obtain ⟨Fa, sa, hsa⟩ := IH _ htake_ne htake_len (max 2 (b - 2)) (by omega)
      obtain ⟨Fb, sb, hsb⟩ := IH _ hdrop_ne hdrop_len (max 2 (b - 2)) (by omega)
      refine ⟨max F1 (max Fa Fb), [sa] ++ [sb] ++ merged1, ?_⟩
      have hsa' := hMS_mono oracle Fa (max F1 (max Fa Fb)) (by omega) _ _ _ hsa
      have hsb' := hMS_mono oracle Fb (max F1 (max Fa Fb)) (by omega) _ _ _ hsb
      have h1' := processBatches_mono oracle _ _
        (fun l' b' r' hh => hMS_mono oracle F1 (max F1 (max Fa Fb)) (by omega) l' b' r' hh)
        b rest _ h1
      unfold processBatches
      simp only [ho, if_pos h413e]
      rw [subMerge_ok_of _ b _ htake_ne sa hsa', subMerge_ok_of _ b _ hdrop_ne sb hsb', h1']

/-- Totality of the hierarchical merge when pairwise merges succeed and failures
are payload-too-large, by strong induction on the number of summaries (outer)
and the batch size (inner): some fuel produces a merged string. -/
theorem hMS_total (oracle : List String → Except String String)
    (hok : ∀ l : List String, l.length ≤ 2 → ∃ s, oracle l = .ok s)
    (h413 : ∀ l e, oracle l = .error e → is413 e = true) :
    ∀ (N : Nat) (l : List String), l.length ≤ N → l ≠ [] → ∀ b, 2 ≤ b →
      ∃ fuel s, hierarchicalMergeSummaries oracle fuel l b = some (.ok s) := by
  intro N
  induction N with
  | zero =>
    intro l hl hne b hb
    cases l with
    | nil => exact absurd rfl hne
    | cons c cs => simp at hl
  | succ n ihN =>
    intro l hl hne b
    by_cases h1 : l.length ≤ 1
    · intro hb
      refine ⟨1, l.headD "", ?_⟩
      simp [hierarchicalMergeSummaries, h1]
    · induction b using Nat.strong_induction_on with
      | _ b ihB =>
        intro hb
        by_cases h2 : l.length ≤ b
        · cases ho : oracle l with
          | ok s =>
            refine ⟨1, s, ?_⟩
            simp only [hierarchicalMergeSummaries]
            rw [if_neg h1, if_pos h2]
            simp [ho]
          | error e =>
            have h413e := h413 l e ho
            by_cases h3 : 2 < b
            · obtain ⟨f, s, hf⟩ := ihB (b - 1) (by omega) (by omega)
              refine ⟨f + 1, s, ?_⟩
              simp only [hierarchicalMergeSummaries]
              rw [if_neg h1, if_pos h2]
              simp only [ho]
              rw [if_pos ⟨h413e, h3⟩]
              exact hf
            · obtain ⟨s, hs⟩ := hok l (by omega)
              rw [ho] at hs
              cases hs
        · push_neg at h2
          have hchunks := chunkList_mem_length b l
          have IH : ∀ sub : List String, sub ≠ [] → sub.length ≤ b → ∀ b', 2 ≤ b' →
              ∃ fuel s, hierarchicalMergeSummaries oracle fuel sub b' = some (.ok s) := by
            intro sub hsne hsl b' hb'
            exact ihN sub (by omega) hsne b' hb'
          obtain ⟨F, merged, hpb⟩ := processBatches_total oracle hok h413 b IH
            (chunkList b l) hchunks
          obtain ⟨hm1, hmlt⟩ := merged_level_lt oracle hok _ l merged b hb h2 hpb
          have hmerged_ne : merged ≠ [] := List.ne_nil_of_length_pos (by omega)
          obtain ⟨F2, s, hf2⟩ := ihN merged (by omega) hmerged_ne b hb
          refine ⟨max F F2 + 1, s, ?_⟩
          have hpb' := processBatches_mono oracle _ _
            (fun l' b' r' hh => hMS_mono oracle F (max F F2) (by omega) l' b' r' hh)
            b (chunkList b l) _ hpb
          have hf2' := hMS_mono oracle F2 (max F F2) (by omega) _ _ _ hf2
          rw [hMS_batch_case oracle (max F F2) l b h1 (by omega), hpb']
          exact hf2'

/-- Claim C1 amended: for every non-empty summary list and batch size at least 2,
provided the worst-case pairwise (and singleton) merges succeed and merge
failures carry the payload-too-large signature, the hierarchical merge
terminates with exactly one string (some fuel suffices), and whenever a level
holds more summaries than the batch size, the next level is non-empty and
strictly shorter. Unconditional termination fails: see the counterexample. -/
theorem C1_amended (oracle : List String → Except String String)
    (hok : ∀ l : List String, l.length ≤ 2 → ∃ s, oracle l = .ok s)
    (h413 : ∀ l e, oracle l = .error e → is413 e = true) :
    (∀ (l : List String) (b : Nat), l ≠ [] → 2 ≤ b →
      ∃ fuel s, hierarchicalMergeSummaries oracle fuel l b = some (.ok s)) ∧
    (∀ (rec : List String → Nat → Option (Except String String))
      (l merged : List String) (b : Nat), 2 ≤ b → b < l.length →
      processBatches oracle rec b (chunkList b l) = some (.ok merged) →
      1 ≤ merged.length ∧ merged.length < l.length) := by
  constructor
  · intro l b hne hb
    exact hMS_total oracle hok h413 l.length l (Nat.le_refl _) hne b hb
  · intro rec l merged b hb hbl hpb
    exact merged_level_lt oracle hok rec l merged b hb hbl hpb

/-- Witness for `C1_amended`: an always-succeeding merge oracle on three
summaries at batch size 2. -/
theorem C1_amended_witness :
    (["x", "y", "z"] : List String) ≠ [] ∧ 2 ≤ 2 ∧
    ∃ fuel s, hierarchicalMergeSummaries (fun _ => .ok "M") fuel ["x", "y", "z"] 2 =
      some (.ok s) :=
  ⟨by decide, by decide,
   (C1_amended (fun _ => .ok "M") (fun _ _ => ⟨"M", rfl⟩)
     (fun _ e h => by cases h)).1 ["x", "y", "z"] 2 (by decide) (by decide)⟩

/-! ## Claim C8: redaction lemmas -/

/-- The boolean prefix test agrees with `List.IsPrefix`. -/
theorem chIsPre_iff : ∀ (p l : List Char), chIsPre p l = true ↔ p <+: l
  | [], l => by simp [chIsPre]
  | p :: ps, [] => by simp [chIsPre]
  | p :: ps, c :: cs => by
    simp [chIsPre, List.cons_prefix_cons, chIsPre_iff ps cs]

/-- A prefix reaching past `q` pins the element right after `q` to one of its own. -/
theorem mem_of_prefix_append : ∀ (k q : List Char) (c : Char) (z : List Char),
    q.length < k.length → k <+: q ++ c :: z → c ∈ k
  | [], _, _, _, hlt, _ => by simp at hlt
  | k0 :: ks, [], c, z, _, h => by
    rw [List.nil_append, List.cons_prefix_cons] at h
    rw [h.1]
    exact List.mem_cons_self _ _
  | k0 :: ks, a :: q2, c, z, hlt, h => by
    rw [List.cons_append, List.cons_prefix_cons] at h
    refine List.mem_cons_of_mem _ (mem_of_prefix_append ks q2 c z ?_ h.2)
    simp only [List.length_cons] at hlt
    omega

/-- Unfolding of the substring test on a cons. -/
theorem chHasSub_cons (p : List Char) (c : Char) (cs : List Char) :
    chHasSub p (c :: cs) = (chIsPre p (c :: cs) || chHasSub p cs) := rfl

/-- If no suffix of `w` continued by `rest` starts with `k`, the occurrences of
`k` in `w ++ rest` are exactly those in `rest`. -/
theorem chHasSub_append_skip (k : List Char) :
    ∀ (w rest : List Char),
      (∀ t, t < w.length → chIsPre k (w.drop t ++ rest) = false) →
      chHasSub k (w ++ rest) = chHasSub k rest := by
  intro w
  induction w with
  | nil => intro rest _; rfl
  | cons c w' ih =>
    intro rest hno
    rw [List.cons_append, chHasSub_cons]
    have h0 := hno 0 (by simp)
    simp only [List.drop_zero, List.cons_append] at h0
    rw [h0]
    simp only [Bool.false_or]
    exact ih rest (fun t ht => by
      have hh := hno (t + 1) (by simp only [List.length_cons]; omega)
      simpa using hh)

/-- A clean substring test survives dropping the head. -/
theorem chHasSub_false_tail (k : List Char) (c : Char) (cs : List Char)
    (h : chHasSub k (c :: cs) = false) : chHasSub k cs = false := by
  rw [chHasSub_cons] at h
  exact (Bool.or_eq_false_iff.mp h).2

/-- A clean substring test survives dropping a prefix. -/
theorem chHasSub_false_drop (k : List Char) : ∀ (n : Nat) (s : List Char),
    chHasSub k s = false → chHasSub k (s.drop n) = false
  | 0, _, h => h
  | _ + 1, [], h => h
  | n + 1, c :: cs, h => chHasSub_false_drop k n cs (chHasSub_false_tail k c cs h)

/-- A clean substring test survives `dropWhile`. -/
theorem chHasSub_false_dropWhile (k : List Char) (p : Char → Bool) :
    ∀ s : List Char, chHasSub k s = false → chHasSub k (s.dropWhile p) = false
  | [], h => h
  | c :: cs, h => by
    rw [List.dropWhile_cons]
    by_cases hp : p c
    · rw [if_pos hp]
      exact chHasSub_false_dropWhile k p cs (chHasSub_false_tail k c cs h)
    · rw [if_neg hp]
      exact h

/-- Unfolding of `pyReplace` on the empty text. -/
theorem pyReplace_nil (k r : List Char) : pyReplace k r [] = [] := by
  rw [pyReplace.eq_def]
  split
  · rfl
  · rfl

/-- Unfolding of `pyReplace` at an occurrence of `k`. -/
theorem pyReplace_pos (k r : List Char) (c : Char) (cs : List Char) (hk : ¬ k.length = 0)
    (hpre : chIsPre k (c :: cs) = true) :
    pyReplace k r (c :: cs) = r ++ pyReplace k r ((c :: cs).drop k.length) := by
  rw [pyReplace.eq_def]
  simp only [if_neg hk, if_pos hpre]

/-- Unfolding of `pyReplace` at a copied character. -/
theorem pyReplace_neg (k r : List Char) (c : Char) (cs : List Char) (hk : ¬ k.length = 0)
    (hpre : ¬ chIsPre k (c :: cs) = true) :
    pyReplace k r (c :: cs) = c :: pyReplace k r cs := by
  rw [pyReplace.eq_def]
  simp only [if_neg hk, if_neg hpre]

/-- Unfolding of `rxScan` on the empty text. -/
theorem rxScan_nil : rxScan [] = [] := by
  rw [rxScan.eq_def]

/-- Unfolding of `rxScan` at a pattern match. -/
theorem rxScan_pos (c : Char) (cs : List Char)
    (h : (chIsPre skPat (c :: cs) && headKeyChar ((c :: cs).drop 6)) = true) :
    rxScan (c :: cs) = rxRepl ++ rxScan (((c :: cs).drop 6).dropWhile keyChar) := by
  rw [rxScan.eq_def]
  simp only [if_pos h]

/-- Unfolding of `rxScan` at a copied character. -/
theorem rxScan_neg (c : Char) (cs : List Char)
    (h : ¬ (chIsPre skPat (c :: cs) && headKeyChar ((c :: cs).drop 6)) = true) :
    rxScan (c :: cs) = c :: rxScan cs := by
  rw [rxScan.eq_def]
  simp only [if_neg h]

/-- The scan either copies the whole text (no match anywhere ahead) or splits at
the first match: a copied prefix, the replacement, and the scanned remainder. -/
theorem rxScan_decomp : ∀ s : List Char,
    rxScan s = s ∨
    ∃ p t, s = p ++ t ∧ (chIsPre skPat t && headKeyChar (t.drop 6)) = true ∧
      rxScan s = p ++ (rxRepl ++ rxScan ((t.drop 6).dropWhile keyChar)) := by
  intro s
  induction s using rxScan.induct with
  | case1 => exact Or.inl rxScan_nil
  | case2 c cs hcond _ =>
    right
    refine ⟨[], c :: cs, rfl, hcond, ?_⟩
    rw [rxScan_pos c cs hcond]
    rfl
  | case3 c cs hcond ih =>
    rw [rxScan_neg c cs hcond]
    rcases ih with h | ⟨p, t, hsplit, hmatch, hout⟩
    · exact Or.inl (by rw [h])
    · right
      refine ⟨c :: p, t, by rw [hsplit]; rfl, hmatch, ?_⟩
      rw [hout]
      rfl

/-- The replacement text itself contains no pattern match, and creates none at
its boundary with what follows. -/
theorem hasSkMatch_rxRepl (R : List Char) : hasSkMatch (rxRepl ++ R) = hasSkMatch R := rfl

/-- A position the scanner copied cannot become a match in the output: the
output's next five characters and the class test transfer back to the input. -/
theorem rxScan_head_transfer (c : Char) (cs : List Char)
    (hcond : ¬ (chIsPre skPat (c :: cs) && headKeyChar ((c :: cs).drop 6)) = true) :
    (chIsPre skPat (c :: rxScan cs) && headKeyChar ((c :: rxScan cs).drop 6)) = false := by
  by_contra hcontra
  rw [Bool.not_eq_false, Bool.and_eq_true] at hcontra
  obtain ⟨hpre, hkey⟩ := hcontra
  have hsk : skPat = 's' :: 'k' :: '-' :: 'o' :: 'r' :: '-' :: [] := rfl
  rw [hsk] at hpre
  simp only [chIsPre, Bool.and_eq_true, beq_iff_eq] at hpre
  obtain ⟨hc, hpre5⟩ := hpre
  simp only [List.drop_succ_cons, List.drop_zero] at hkey
  rcases rxScan_decomp cs with hout | ⟨p, t, hsplit, hmatch, hout⟩
  · refine hcond ?_
    rw [hsk]
    rw [hout] at hpre5 hkey
    simp only [chIsPre, Bool.and_eq_true, beq_iff_eq, List.drop_succ_cons, List.drop_zero]
    exact ⟨⟨hc, hpre5⟩, hkey⟩
  · rw [hout] at hpre5 hkey
    have hm1 : chIsPre skPat t = true := by
      have h' := hmatch
      simp only [Bool.and_eq_true] at h'
      exact h'.1
    obtain ⟨t0, t', rfl⟩ : ∃ t0 t', t = t0 :: t' := by
      cases t with
      | nil => rw [hsk] at hm1; cases hm1
      | cons t0 t' => exact ⟨t0, t', rfl⟩
    have ht0 : t0 = 's' := by
      rw [hsk] at hm1
      simp only [chIsPre, Bool.and_eq_true, beq_iff_eq] at hm1
      exact hm1.1.symm
    have e0 : ∀ X : List Char, chIsPre ('k' :: '-' :: 'o' :: 'r' :: '-' :: []) (rxRepl ++ X) =
        false := fun _ => rfl
    have e1 : ∀ X : List Char, chIsPre ('-' :: 'o' :: 'r' :: '-' :: []) (rxRepl ++ X) =
        false := fun _ => rfl
    have e2 : ∀ X : List Char, chIsPre ('o' :: 'r' :: '-' :: []) (rxRepl ++ X) =
        false := fun _ => rfl
    have e3 : ∀ X : List Char, chIsPre ('r' :: '-' :: []) (rxRepl ++ X) = false := fun _ => rfl
    have e4 : ∀ X : List Char, chIsPre ('-' :: []) (rxRepl ++ X) = false := fun _ => rfl
    have hks : keyChar 's' = true := by decide
    rcases p with _ | ⟨a1, _ | ⟨a2, _ | ⟨a3, _ | ⟨a4, _ | ⟨a5, p'⟩⟩⟩⟩⟩
    · simp only [List.nil_append, chIsPre, Bool.and_eq_true, beq_iff_eq] at hpre5
      exact absurd hpre5.1 (by decide)
    · simp only [List.cons_append, List.nil_append, chIsPre, Bool.and_eq_true,
        beq_iff_eq] at hpre5
      exact absurd hpre5.2.1 (by decide)
    · simp only [List.cons_append, List.nil_append, chIsPre, Bool.and_eq_true,
        beq_iff_eq] at hpre5
      exact absurd hpre5.2.2.1 (by decide)
    · simp only [List.cons_append, List.nil_append, chIsPre, Bool.and_eq_true,
        beq_iff_eq] at hpre5
      exact absurd hpre5.2.2.2.1 (by decide)
    · simp only [List.cons_append, List.nil_append, chIsPre, Bool.and_eq_true,
        beq_iff_eq] at hpre5
      exact absurd hpre5.2.2.2.2.1 (by decide)
    · cases p' with
      | nil =>
        simp only [List.cons_append, List.nil_append, chIsPre, Bool.and_eq_true,
          beq_iff_eq] at hpre5
        obtain ⟨ha1, ha2, ha3, ha4, ha5, -⟩ := hpre5
        subst hc
        subst ht0
        subst ha1
        subst ha2
        subst ha3
        subst ha4
        subst ha5
        apply hcond
        rw [hsplit, hsk]
        simp only [List.cons_append, List.nil_append, chIsPre, List.drop_succ_cons,
          List.drop_zero, headKeyChar, beq_self_eq_true, Bool.and_self, Bool.true_and]
        simp [hks]
      | cons a6 p2 =>
        simp only [List.cons_append, List.nil_append, chIsPre, Bool.and_eq_true,
          beq_iff_eq] at hpre5
        obtain ⟨ha1, ha2, ha3, ha4, ha5, -⟩ := hpre5
        simp only [List.cons_append, List.drop_succ_cons, List.drop_zero,
          headKeyChar] at hkey
        subst hc
        subst ha1
        subst ha2
        subst ha3
        subst ha4
        subst ha5
        apply hcond
        rw [hsplit, hsk]
        simp only [List.cons_append, List.nil_append, chIsPre, List.drop_succ_cons,
          List.drop_zero, headKeyChar, beq_self_eq_true, Bool.and_self, Bool.true_and]
        simp [hkey]

/-- The scanner's output never contains a pattern match: replacements leave no
match behind, and copied positions cannot combine into one. -/
theorem rxScan_no_match : ∀ s : List Char, hasSkMatch (rxScan s) = false := by
  intro s
  induction s using rxScan.induct with
  | case1 => rw [rxScan_nil]; rfl
  | case2 c cs hcond ih =>
    rw [rxScan_pos c cs hcond, hasSkMatch_rxRepl]
    exact ih
  | case3 c cs hcond ih =>
    rw [rxScan_neg c cs hcond]
    show ((chIsPre skPat (c :: rxScan cs) && headKeyChar ((c :: rxScan cs).drop 6)) ||
      hasSkMatch (rxScan cs)) = false
    rw [rxScan_head_transfer c cs hcond, ih]
    rfl

/-- A prefix no longer than `q` of `q ++ Y` is a prefix of `q`. -/
theorem prefix_confine (k q Y : List Char) (hlen : k.length ≤ q.length)
    (h : k <+: q ++ Y) : k <+: q := by
  rw [List.prefix_iff_eq_take] at h
  rw [List.take_append_eq_append_take, Nat.sub_eq_zero_of_le hlen, List.take_zero,
    List.append_nil] at h
  rw [h]
  exact List.take_prefix _ _

/-- A prefix of `q` is a prefix of `q ++ Y`. -/
theorem prefix_extend (k q Y : List Char) (h : k <+: q) : k <+: q ++ Y :=
  h.trans (List.prefix_append q Y)

/-- The scanner preserves the absence of a foreign substring `k` that is longer
than the pattern literal and contains no marker character, and never manufactures
a `k`-prefix the input did not already have: an occurrence overlapping an inserted
replacement either touches a marker character, or stays within the replacement's
first six characters — which coincide with the matched input text, so the
occurrence transfers back to the input. -/
theorem rxScan_no_k (k : List Char) (hklen : 6 < k.length)
    (hdis : ∀ x ∈ redactedMarker, x ∉ k) :
    ∀ s : List Char, chHasSub k s = false →
      chHasSub k (rxScan s) = false ∧
      (∀ q : List Char, chIsPre k (q ++ rxScan s) = true → chIsPre k (q ++ s) = true) := by
  have hsp6 : skPat.length = 6 := by decide
  have hrw : rxRepl = skPat ++ redactedMarker := rfl
  have hmark : redactedMarker = '.' :: "..[REDACTED]".toList := rfl
  intro s
  induction s using rxScan.induct with
  | case1 =>
    intro h
    rw [rxScan_nil]
    exact ⟨h, fun _ hq => hq⟩
  | case2 c cs hcond ih =>
    intro hs
    rw [rxScan_pos c cs hcond]
    have hrest : chHasSub k (((c :: cs).drop 6).dropWhile keyChar) = false :=
      chHasSub_false_dropWhile k keyChar _ (chHasSub_false_drop k 6 _ hs)
    obtain ⟨ih1, ih2⟩ := ih hrest
    have hskpre : chIsPre skPat (c :: cs) = true := by
      have h' := hcond
      simp only [Bool.and_eq_true] at h'
      exact h'.1
    constructor
    · rw [chHasSub_append_skip k rxRepl _ ?side]
      · exact ih1
      case side =>
        intro t ht
        have hrlen : rxRepl.length = 19 := by decide
        by_contra hb
        rw [Bool.not_eq_false, chIsPre_iff] at hb
        by_cases h6 : t < 6
        · rw [hrw, List.drop_append_eq_append_drop, hsp6] at hb
          have hz : t - 6 = 0 := by omega
          rw [hz, List.drop_zero, hmark, List.append_assoc, List.cons_append] at hb
          have hql : (skPat.drop t).length < k.length := by
            rw [List.length_drop, hsp6]
            omega
          have hdot : '.' ∈ k := mem_of_prefix_append k _ '.' _ hql hb
          exact absurd hdot (hdis '.' (by decide))
        · push_neg at h6
          have hnil : skPat.drop t = [] :=
            List.drop_eq_nil_iff.mpr (by rw [hsp6]; omega)
          rw [hrw, List.drop_append_eq_append_drop, hsp6, hnil, List.nil_append] at hb
          have hmlen : redactedMarker.length = 13 := by decide
          have hne : redactedMarker.drop (t - 6) ≠ [] := by
            rw [Ne, List.drop_eq_nil_iff]
            omega
          obtain ⟨m0, m1, hm'⟩ := List.exists_cons_of_ne_nil hne
          rw [hm', List.cons_append] at hb
          have hm0k : m0 ∈ k :=
            mem_of_prefix_append k [] m0 _ (by simp only [List.length_nil]; omega)
              (by simpa using hb)
          have hm0m : m0 ∈ redactedMarker :=
            List.mem_of_mem_drop (hm' ▸ List.mem_cons_self m0 m1)
          exact absurd hm0k (hdis m0 hm0m)
    · intro q hq
      by_cases hlen : k.length ≤ q.length
      · rw [chIsPre_iff] at hq ⊢
        exact prefix_extend k q _ (prefix_confine k q _ hlen hq)
      · push_neg at hlen
        rw [chIsPre_iff] at hq
        rw [hrw, List.append_assoc, ← List.append_assoc q skPat _] at hq
        by_cases h6 : k.length ≤ q.length + 6
        · have hconf : k <+: q ++ skPat :=
            prefix_confine k (q ++ skPat) _
              (by rw [List.length_append, hsp6]; omega) hq
          obtain ⟨tail, htail⟩ := (chIsPre_iff skPat (c :: cs)).mp hskpre
          rw [chIsPre_iff, ← htail, ← List.append_assoc]
          exact prefix_extend k (q ++ skPat) tail hconf
        · push_neg at h6
          rw [hmark, List.cons_append] at hq
          have hdot : '.' ∈ k := mem_of_prefix_append k (q ++ skPat) '.' _
            (by rw [List.length_append, hsp6]; omega) hq
          exact absurd hdot (hdis '.' (by decide))
  | case3 c cs hcond ih =>
    intro hs
    rw [rxScan_neg c cs hcond]
    have hcs : chHasSub k cs = false := chHasSub_false_tail k c cs hs
    obtain ⟨ih1, ih2⟩ := ih hcs
    constructor
    · rw [chHasSub_cons, ih1, Bool.or_false]
      by_contra hb
      rw [Bool.not_eq_false] at hb
      have htr := ih2 [c] (by simpa using hb)
      rw [chHasSub_cons] at hs
      rcases Bool.or_eq_false_iff.mp hs with ⟨h1, _⟩
      simp only [List.cons_append, List.nil_append] at htr
      rw [htr] at h1
      cases h1
    · intro q hq
      have htr := ih2 (q ++ [c]) (by
        rw [List.append_assoc]
        simpa using hq)
      rw [List.append_assoc] at htr
      simpa using htr

/-- The exact-credential replacement: replacing `k` by its four leading
characters plus the marker leaves no occurrence of `k` (the marker's characters
do not occur in `k`), and the output never gains a `k`-prefix the input lacked. -/
theorem pyReplace_safe (k m : List Char) (hk4 : 4 < k.length) (hm : m ≠ [])
    (hdis : ∀ x ∈ m, x ∉ k) :
    ∀ s : List Char,
      chHasSub k (pyReplace k (k.take 4 ++ m) s) = false ∧
      (∀ q : List Char, chIsPre k (q ++ pyReplace k (k.take 4 ++ m) s) = true →
        chIsPre k (q ++ s) = true) := by
  have hk0 : ¬ k.length = 0 := by omega
  have hkne : k ≠ [] := by
    intro hc
    subst hc
    simp at hk4
  have hkpos : 0 < k.length := by omega
  refine pyReplace.induct k (k.take 4 ++ m)
    (fun s => chHasSub k (pyReplace k (k.take 4 ++ m) s) = false ∧
      (∀ q : List Char, chIsPre k (q ++ pyReplace k (k.take 4 ++ m) s) = true →
        chIsPre k (q ++ s) = true)) ?_ ?_ ?_ ?_
  · intro x hzero
    exact absurd hzero hk0
  · intro _
    rw [pyReplace_nil]
    constructor
    · cases k with
      | nil => exact absurd rfl hkne
      | cons a l => rfl
    · exact fun _ hq => hq
  · intro _ c cs hpre ih
    rw [pyReplace_pos k _ c cs hk0 hpre]
    obtain ⟨ih1, ih2⟩ := ih
    have hL4 : (k.take 4).length = 4 := by
      simp only [List.length_take]
      omega
    constructor
    · rw [chHasSub_append_skip k (k.take 4 ++ m) _ ?side1]
      · exact ih1
      case side1 =>
        intro t ht
        rw [List.length_append, hL4] at ht
        have hmpos : 0 < m.length := List.length_pos.mpr hm
        have hmdrop : m.drop (t - 4) ≠ [] := by
          rw [Ne, List.drop_eq_nil_iff]
          omega
        obtain ⟨m0, m1, hm'⟩ := List.exists_cons_of_ne_nil hmdrop
        by_contra hb
        rw [Bool.not_eq_false, chIsPre_iff] at hb
        rw [List.drop_append_eq_append_drop, hL4, hm', List.append_assoc,
          List.cons_append] at hb
        have hqlen : ((k.take 4).drop t).length < k.length := by
          simp only [List.length_drop, List.length_take]
          omega
        have hm0k : m0 ∈ k := mem_of_prefix_append k _ m0 _ hqlen hb
        have hm0m : m0 ∈ m := List.mem_of_mem_drop (hm' ▸ List.mem_cons_self m0 m1)
        exact absurd hm0k (hdis m0 hm0m)
    · intro q hq
      by_cases hlen : k.length ≤ q.length
      · rw [chIsPre_iff] at hq ⊢
        exact prefix_extend k q _ (prefix_confine k q _ hlen hq)
      · push_neg at hlen
        by_cases hq4 : q.length + 4 < k.length
        · exfalso
          obtain ⟨m0, m1, hm'⟩ := List.exists_cons_of_ne_nil hm
          rw [chIsPre_iff, hm'] at hq
          rw [show q ++ ((k.take 4 ++ m0 :: m1) ++
              pyReplace k (k.take 4 ++ m0 :: m1) ((c :: cs).drop k.length)) =
              (q ++ k.take 4) ++ (m0 :: (m1 ++
                pyReplace k (k.take 4 ++ m0 :: m1) ((c :: cs).drop k.length))) from by
            simp [List.append_assoc]] at hq
          have hqlen : (q ++ k.take 4).length < k.length := by
            rw [List.length_append, hL4]
            omega
          have hm0k : m0 ∈ k := mem_of_prefix_append k _ m0 _ hqlen hq
          exact absurd hm0k (hdis m0 (hm' ▸ List.mem_cons_self m0 m1))
        · push_neg at hq4
          rw [chIsPre_iff] at hq ⊢
          rw [List.prefix_iff_eq_take, List.take_append_eq_append_take,
            List.take_of_length_le (by omega), List.take_append_eq_append_take,
            List.take_append_eq_append_take, hL4] at hq
          have hz1 : k.length - q.length - 4 = 0 := by omega
          have hz2 : k.length - q.length - (k.take 4 ++ m).length = 0 := by
            rw [List.length_append, hL4]
            omega
          rw [hz1, hz2, List.take_zero, List.take_zero, List.append_nil,
            List.append_nil, List.take_take] at hq
          have hmin : min (k.length - q.length) 4 = k.length - q.length := by omega
          rw [hmin] at hq
          obtain ⟨rest, hrest⟩ := (chIsPre_iff k (c :: cs)).mp hpre
          rw [← hrest]
          have hgoal : q ++ k.take (k.length - q.length) <+: q ++ (k ++ rest) :=
            (List.prefix_append_right_inj q).mpr
              (prefix_extend _ _ _ ( List.take_prefix _ _))
          rw [← hq] at hgoal
          exact hgoal
  · intro _ c cs hpre ih
    rw [pyReplace_neg k _ c cs hk0 hpre]
    obtain ⟨ih1, ih2⟩ := ih
    constructor
    · rw [chHasSub_cons, ih1, Bool.or_false]
      by_contra hb
      rw [Bool.not_eq_false] at hb
      have htr := ih2 [c] (by simpa using hb)
      simp only [List.cons_append, List.nil_append] at htr
      exact hpre htr
    · intro q hq
      have htr := ih2 (q ++ [c]) (by
        rw [List.append_assoc]
        simpa using hq)
      rw [List.append_assoc] at htr
      simpa using htr

unseal pyReplace rxScan in
/-- Claim C8 fails as stated: the truncated-credential marker can recombine with
the text that follows a replaced occurrence to recreate the credential. With the
active credential `"D]0123456789"` (length 12 > 8) the redacted output
`"D]01...[REDACTED]0123456789"` contains the credential again, spanning the
marker's closing `D]` and the copied tail. -/
theorem C8_cex :
    8 < ("D]0123456789" : String).length ∧
    chHasSub ("D]0123456789" : String).toList
      (redactApiKey "D]0123456789" "D]01234567890123456789").toList = true := by
  constructor
  · decide
  · decide

/-- Claim C8 amended: if the active credential (length > 8) shares no character
with the fixed redaction marker `...[REDACTED]` — a proviso real provider keys
satisfy — the output of `redact_api_key` never contains the credential as a
substring; and, for every credential and text, no substring matching the provider
pattern `sk-or-` followed by a key character survives in the output. -/
theorem C8_amended (apiKey text : String) (hlen : 8 < apiKey.length)
    (hdis : ∀ x ∈ redactedMarker, x ∉ apiKey.toList) :
    chHasSub apiKey.toList (redactApiKey apiKey text).toList = false ∧
    (∀ key2 text2 : String, hasSkMatch (redactApiKey key2 text2).toList = false) := by
  constructor
  · have he : apiKey.length = apiKey.toList.length := rfl
    have hklen : 4 < apiKey.toList.length := by omega
    have hklen6 : 6 < apiKey.toList.length := by omega
    have hknestr : apiKey ≠ "" := by
      intro hc
      subst hc
      exact absurd hlen (by decide)
    have hstage1 := pyReplace_safe apiKey.toList redactedMarker hklen (by decide)
      hdis text.toList
    simp only [redactApiKey]
    rw [if_pos (⟨hknestr, hlen⟩ : apiKey ≠ "" ∧ 8 < apiKey.length)]
    exact (rxScan_no_k apiKey.toList hklen6 hdis _ hstage1.1).1
  · intro key2 text2
    exact rxScan_no_match _

/-- Witness for `C8_amended`: a provider-format credential (it begins with
`sk-or-` and shares no character with the marker) inside a log line. -/
theorem C8_amended_witness :
    8 < ("sk-or-v1-abc123" : String).length ∧
    chHasSub ("sk-or-v1-abc123" : String).toList
      (redactApiKey "sk-or-v1-abc123" "key sk-or-v1-abc123 leaked").toList = false :=
  ⟨by decide, (C8_amended "sk-or-v1-abc123" "key sk-or-v1-abc123 leaked" (by decide)
    (by decide)).1⟩

end Changelog
